import Mathlib

/-!
# label_image_dir: a shallow embedding of `_example/label_image_dir/main.go`

The program walks a directory of images, runs every image through two
quantized classifiers (`calc`), filters the ranked predictions through
per-label rules, and writes an annotated copy (`outputImage`, `addBanner`).

Conventions of the embedding:

* a Go `string` or `[]byte` is a list (`GoString`, `List Nat`);
* a Go `float64` value that the program computes as `byte / 255.0` is kept as
  the exact rational `byte / 255`: IEEE division is correctly rounded and
  monotone, `51 / 255.0` rounds to the same double as the literal `0.2`, and two
  different bytes give two different doubles, so every comparison the program
  makes between such values has the outcome of the comparison of the rationals;
* functions of the Go standard library and of third-party packages are either
  given as parameters (`GoLib`: `sort.Slice`, the `float32` conversion,
  `fmt.Sprintf`; `imaging.Fill`; the interpreter in `CalcEnv`) or modelled from
  their documentation (`strings.Split`, `filepath.Join`, `bufio.Scanner`,
  `image/draw`);
* a run-time panic is an outcome of its own (`GoErr.panic`).
-/

namespace LabelImageDir

/-! ## Data model -/

/-- A Go string: a sequence of bytes, one `Char` per byte. -/
abbrev GoString := List Char

/-- The Go struct `result`: a score and the class index it belongs to. -/
structure result where
  Score : ℚ
  Index : Nat
deriving DecidableEq

/-- How a Go call ends when it does not return a value: an `error` value
    (with its message) or a run-time panic. -/
inductive GoErr where
  | error (msg : String)
  | panic (msg : String)
deriving DecidableEq

/-- The library functions the program calls and that are kept abstract. -/
structure GoLib where
  /-- Go `sort.Slice(x, less)`: the slice after the call. -/
  sortSlice : (result → result → Bool) → List result → List result
  /-- the conversion `float32(x)` of a `float64`. -/
  float32 : ℚ → ℚ
  /-- Go `fmt.Sprintf("%s - %s(%s): %.2f", modelName, label, ruleLabel, score)`. -/
  sprintfLine : GoString → GoString → GoString → ℚ → GoString
  /-- The value of `byte(f)` for a float `f` whose integer part does not fit a byte: the Go
      specification leaves the value to the implementation. -/
  byteOfLarge : Nat → Nat
  /-- the constant `tflite.UInt8`. -/
  UInt8 : Nat

/-- The loop `for i := 0; i < n; i++ { body }` over a state `s`, where the body may fail. -/
def forLoop {σ : Type} (n : Nat) (body : σ → Nat → Except GoErr σ) (s : σ) : Except GoErr σ :=
  match n with
  | 0 => .ok s
  | k + 1 =>
    match forLoop k body s with
    | .error e => .error e
    | .ok s1 => body s1 k

/-! ## `calc`: the unsigned-byte input path (lines 167-178) -/

/-- The index `(y*dx+x)*3+c` at which channel `c` of pixel `(x, y)` is stored. -/
def writeIndex (dx x y c : Nat) : Nat := (y * dx + x) * 3 + c

/-- The conversion `byte(float64(r) / 255.0)` for a 16-bit sample `r`: the quotient is
    truncated; a quotient of 256 or more does not fit a byte. -/
def toByte (lib : GoLib) (r : Nat) : Nat :=
  if r / 255 < 256 then r / 255 else lib.byteOfLarge (r / 255) % 256

/-- The assignment `bb[i] = v`; it panics when `i` is out of range. -/
def storeByte (bb : List Nat) (i v : Nat) : Except GoErr (List Nat) :=
  if i < bb.length then .ok (bb.set i v) else .error (.panic "index out of range")

/-- The body of the inner loop: the three stores for pixel `(x, y)`. -/
def writePixel (lib : GoLib) (pixel : Nat → Nat → Nat × Nat × Nat) (dx y : Nat)
    (bb : List Nat) (x : Nat) : Except GoErr (List Nat) :=
  match storeByte bb (writeIndex dx x y 0) (toByte lib (pixel x y).1) with
  | .error e => .error e
  | .ok bb1 =>
    match storeByte bb1 (writeIndex dx x y 1) (toByte lib (pixel x y).2.1) with
    | .error e => .error e
    | .ok bb2 => storeByte bb2 (writeIndex dx x y 2) (toByte lib (pixel x y).2.2)

/-- The buffer `bb` after the two nested loops, starting from
    `make([]byte, dx*dy*wantedChannels)`. -/
def fillInput (lib : GoLib) (pixel : Nat → Nat → Nat × Nat × Nat) (dx dy wantedChannels : Nat) :
    Except GoErr (List Nat) :=
  forLoop dy (fun bb y => forLoop dx (writePixel lib pixel dx y) bb)
    (List.replicate (dx * dy * wantedChannels) 0)

/-- Channel `c` (0 = R, 1 = G, 2 = B) of the samples of one pixel. -/
def channel (p : Nat × Nat × Nat) (c : Nat) : Nat :=
  if c = 0 then p.1 else if c = 1 then p.2.1 else p.2.2

/-- The indices the two nested loops of the input path store to, in the order
    of the stores: rows outermost, then columns, then the three channels. -/
def writeOrder (dx dy : Nat) : List Nat :=
  (List.range dy).flatMap (fun y =>
    (List.range dx).flatMap (fun x =>
      [writeIndex dx x y 0, writeIndex dx x y 1, writeIndex dx x y 2]))

/-- The byte the input path is to leave at index `i` of the buffer: the channel
    `i % 3` of the pixel number `i / 3` in row-major order. -/
def inputByte (lib : GoLib) (pixel : Nat → Nat → Nat × Nat × Nat) (dx i : Nat) : Nat :=
  toByte lib (channel (pixel (i / 3 % dx) (i / 3 / dx)) (i % 3))

/-! ## `calc`: post-processing of the output tensor (lines 188-206) -/

/-- The comparison closure handed to `sort.Slice` in `calc`:
    `results[i].Score > results[j].Score`. -/
def scoreLess (a b : result) : Bool := decide (a.Score > b.Score)

/-- The contract of `sort.Slice(x, less)` from the Go standard library: the
    slice is rearranged (a permutation) so that no later element is `less` than
    an earlier one.  The order of equal elements is not specified. -/
def SortsBy (sortSlice : (result → result → Bool) → List result → List result)
    (less : result → result → Bool) : Prop :=
  ∀ l, (sortSlice less l).Perm l ∧ (sortSlice less l).Pairwise (fun a b => less b a = false)

/-- The loop `for i := 0; i < outputSize; i++` of `calc`: entries whose score
    is below `0.2` are skipped, the others are appended in index order. -/
def collectResults (b : List Nat) : List result :=
  (List.range b.length).foldl
    (fun results i =>
      let score : ℚ := (b.getD i 0 : ℚ) / 255
      if score < 0.2 then results else results ++ [{ Score := score, Index := i }])
    []

/-- Lines 195-206 of `calc`: collect the entries, sort them with `sort.Slice`,
    return them. -/
def calcResults (lib : GoLib) (b : List Nat) : List result :=
  lib.sortSlice scoreLess (collectResults b)

/-- What `calc` meets for one model and one file: the outcome of every call it
    makes into the operating system, the image codec and the interpreter. -/
structure CalcEnv where
  /-- the error of `os.Open(fp)`, if any. -/
  openErr : Option String
  /-- the error of `image.Decode(f)`, if any. -/
  decodeErr : Option String
  /-- whether `tflite.NewInterpreter` returned nil. -/
  interpreterNil : Bool
  /-- whether `interpreter.AllocateTensors()` returned `tflite.OK`. -/
  allocateOK : Bool
  /-- Go `input.Dim(3)`. -/
  wantedChannels : Nat
  /-- Go `input.Type()`. -/
  wantedType : Nat
  /-- Go `resized.Bounds().Dx()`. -/
  dx : Nat
  /-- Go `resized.Bounds().Dy()`. -/
  dy : Nat
  /-- the samples `r, g, b` of `resized.At(x, y).RGBA()`. -/
  pixel : Nat → Nat → Nat × Nat × Nat
  /-- Go `interpreter.Invoke()` on the input buffer: `none` when the status is not
      `tflite.OK`, otherwise the bytes of the output tensor (their number is
      `outputSize`). -/
  invoke : List Nat → Option (List Nat)
  /-- whether `output.CopyToBuffer` returned `tflite.OK`. -/
  copyOK : Bool

/-- The function `calc` (`calc` is a keyword of Lean, hence the underscore). -/
def calc_ (lib : GoLib) (env : CalcEnv) : Except GoErr (List result) :=
  match env.openErr with
  | some e => .error (.error e)
  | none =>
    match env.decodeErr with
    | some e => .error (.error e)
    | none =>
      if env.interpreterNil then .error (.error "cannot create interpreter")
      else if !env.allocateOK then .error (.error "allocate failed")
      else if env.wantedType = lib.UInt8 then
        match fillInput lib env.pixel env.dx env.dy env.wantedChannels with
        | .error e => .error e
        | .ok bb =>
          match env.invoke bb with
          | none => .error (.error "invoke failed")
          | some b =>
            -- `&b[0]` panics on an empty slice
            if b.length = 0 then .error (.panic "index out of range")
            else if !env.copyOK then .error (.error "output failed")
            else .ok (calcResults lib b)
      else .error (.error (toString env.wantedType ++ " is not wanted type"))

/-- The run of `calc` goes through to the post-processing with output bytes `b`:
    every call succeeds, the input is of the unsigned-byte type, the input
    buffer is filled without a panic, the model answers it with `b`, and the
    output tensor is not empty. -/
def Runs (lib : GoLib) (env : CalcEnv) (b : List Nat) : Prop :=
  env.openErr = none ∧ env.decodeErr = none ∧ env.interpreterNil = false ∧
  env.allocateOK = true ∧ env.wantedType = lib.UInt8 ∧
  (fillInput lib env.pixel env.dx env.dy env.wantedChannels).toOption.bind env.invoke = some b ∧
  1 ≤ b.length ∧ env.copyOK = true

instance (lib : GoLib) (env : CalcEnv) (b : List Nat) : Decidable (Runs lib env b) := by
  unfold Runs
  infer_instance

/-! ## A concrete library and concrete runs, for the examples -/

/-- A concrete `sort.Slice`: insertion sort, the algorithm the Go runtime runs
    on slices of at most twelve elements. -/
def insertionSortSlice (less : result → result → Bool) (l : List result) : List result :=
  List.insertionSort (fun a b => less b a = false) l

/-- A concrete library, used where the program is evaluated on an example
    (the general theorems hold for every library): the `float32` conversion is
    the identity, a formatted line leaves the score out, and `byte` keeps the
    low eight bits as the gc compiler does on amd64. -/
def exampleLib : GoLib where
  sortSlice := insertionSortSlice
  float32 := fun q => q
  sprintfLine := fun modelName label ruleLabel _ =>
    modelName ++ " - ".toList ++ label ++ "(".toList ++ ruleLabel ++ "): ".toList
  byteOfLarge := fun q => q
  UInt8 := 3

/-- A concrete run of `calc`: a one-pixel input of three channels and a model
    that answers with the three output bytes 255, 10, 60. -/
def exampleEnv : CalcEnv where
  openErr := none
  decodeErr := none
  interpreterNil := false
  allocateOK := true
  wantedChannels := 3
  wantedType := 3
  dx := 1
  dy := 1
  pixel := fun _ _ => (65535, 0, 32768)
  invoke := fun _ => some [255, 10, 60]
  copyOK := true

/-! ## The walk callback of `main` (lines 84-128) -/

/-- The rule a label is matched to; of the type `Rule` the callback reads the
    fields `Threshold` (compared with a `float32`) and `Label`. -/
structure Rule where
  Label : GoString
  Threshold : ℚ
deriving DecidableEq

/-- Modelled from the spec: the rule store `rules` and its method `Find` are not
    in the source file. `Find(label)` returns the matched rule and `true`, or,
    for a label no rule matches, the zero-valued `Rule` (threshold 0, empty
    display label) and `false`. How labels are matched is left to `table`. -/
def rulesFind (table : GoString → Option Rule) (label : GoString) : Rule × Bool :=
  match table label with
  | some r => (r, true)
  | none => ({ Label := [], Threshold := 0 }, false)

/-- The loop `for j := 0; j < len(results); j++` of the callback for model `i`,
    from position `j` on: the list argument is `results[j:]`, `texts` the lines
    accepted so far. -/
def ruleLoop (lib : GoLib) (table : GoString → Option Rule) (labels : List (List GoString))
    (modelName : List GoString) (i : Nat) :
    List result → Nat → List GoString → Except GoErr (List GoString)
  | [], _, texts => .ok texts
  | r :: rest, j, texts =>
    match labels[i]? with
    | none => .error (.panic "index out of range")
    | some ls =>
      match ls[r.Index]? with
      | none => .error (.panic "index out of range")
      | some label =>
        let rule := (rulesFind table label).1
        -- discard labels that do not meet the threshold
        if lib.float32 r.Score < rule.Threshold then
          ruleLoop lib table labels modelName i rest (j + 1) texts
        else
          match modelName[i]? with
          | none => .error (.panic "index out of range")
          | some name =>
            let texts1 := texts ++ [lib.sprintfLine name label rule.Label r.Score]
            if j > 5 then .ok texts1
            else ruleLoop lib table labels modelName i rest (j + 1) texts1

/-- The loop `for i := 0; i < len(models); i++` of the callback; `envs[i]` is
    what `calc(models[i], options, path)` meets. -/
def collectTexts (lib : GoLib) (table : GoString → Option Rule) (envs : List CalcEnv)
    (labels : List (List GoString)) (modelName : List GoString) : Except GoErr (List GoString) :=
  forLoop envs.length
    (fun texts i =>
      match envs[i]? with
      | none => .error (.panic "index out of range")
      | some env =>
        match calc_ lib env with
        | .error e => .error e
        | .ok results => ruleLoop lib table labels modelName i results 0 texts)
    []

/-- Go `strings.Split(s, sep)` for a separator of one byte. -/
def stringsSplit (sep : Char) : GoString → List GoString
  | [] => [[]]
  | c :: cs =>
    if c = sep then [] :: stringsSplit sep cs
    else
      match stringsSplit sep cs with
      | [] => [[c]]
      | p :: ps => (c :: p) :: ps

/-- Go `strings.Join(elems, sep)` for a separator of one byte. -/
def stringsJoin (sep : Char) : List GoString → GoString
  | [] => []
  | [e] => e
  | e :: rest => e ++ sep :: stringsJoin sep rest

/-- One step of cleaning a path, for the next element `e`: an empty or `.`
    element is dropped; a `..` element removes the element before it, is
    dropped right under the root, and is kept in front of a path that is not
    rooted; any other element is kept. `out` holds the elements kept so far,
    last one first. -/
def cleanStep (rooted : Bool) (out : List GoString) (e : GoString) : List GoString :=
  if e = [] ∨ e = ['.'] then out
  else if e = ['.', '.'] then
    match out with
    | [] => if rooted then [] else [e]
    | top :: below => if top = ['.', '.'] then e :: top :: below else below
  else e :: out

/-- The elements of a cleaned path, first one first. -/
def cleanElems (rooted : Bool) (elems : List GoString) : List GoString :=
  (elems.foldl (cleanStep rooted) []).reverse

/-- Go `filepath.Clean(path)` on a system whose separator is `/`, after the
    documentation of the Go standard library: the shortest path that names
    the same file by purely lexical processing. -/
def filepathClean (path : GoString) : GoString :=
  let rooted : Bool := decide (path.head? = some '/')
  let elems := cleanElems rooted (stringsSplit '/' path)
  if rooted then '/' :: stringsJoin '/' elems
  else if elems = [] then ['.'] else stringsJoin '/' elems

/-- Go `filepath.Join(elem...)`: empty elements in front are ignored, the rest is
    joined with the separator and cleaned; the result is empty when every
    element is. -/
def filepathJoin : List GoString → GoString
  | [] => []
  | e :: rest => if e = [] then filepathJoin rest else filepathClean (stringsJoin '/' (e :: rest))

/-- The `os.FileInfo` of the visited file, as far as the callback reads it. -/
structure FileInfo where
  IsDir : Bool
  Name : GoString

/-- A call `outputImage(src, out, labels)`, and the directory handed to
    `os.MkdirAll` before it, if any. -/
structure OutputCall where
  mkdir : Option GoString
  src : GoString
  out : GoString
  labels : List GoString
deriving DecidableEq

/-- Lines 115-126: the output path, and the directory to create for it. -/
def outputPath (outDir path name : GoString) : Option GoString × GoString :=
  let parts := stringsSplit '/' path
  if parts.length > 7 then
    -- assume directories is like .../alice/Photos/preview/2020/01/01
    let out := filepathJoin [outDir,
      parts.getD (parts.length - 7) [], parts.getD (parts.length - 6) [],
      parts.getD (parts.length - 5) [], parts.getD (parts.length - 4) [],
      parts.getD (parts.length - 3) [], parts.getD (parts.length - 2) []]
    (some out, filepathJoin [out, name])
  else (none, name)

/-- The callback handed to `filepath.Walk`, for one visited `path`: `none` when
    it returns nil without output, otherwise the call of `outputImage` whose
    result it returns. `walkErr` is the error the walk passes in, `mkdirErr` the
    outcome of `os.MkdirAll`. -/
def walkFn (lib : GoLib) (table : GoString → Option Rule) (envs : List CalcEnv)
    (labels : List (List GoString)) (modelName : List GoString) (outDir : GoString)
    (mkdirErr : GoString → Option String) (path : GoString) (info : FileInfo)
    (walkErr : Option String) : Except GoErr (Option OutputCall) :=
  match walkErr with
  | some e => .error (.error e)
  | none =>
    if info.IsDir then .ok none
    else
      match collectTexts lib table envs labels modelName with
      | .error e => .error e
      | .ok texts =>
        if texts.length = 0 then .ok none
        else
          match outputPath outDir path info.Name with
          | (none, outpath) =>
            .ok (some { mkdir := none, src := path, out := outpath, labels := texts })
          | (some out, outpath) =>
            match mkdirErr out with
            | some e => .error (.error e)
            | none => .ok (some { mkdir := some out, src := path, out := outpath, labels := texts })

/-- Whether the callback keeps the prediction `r` of a model with labels `ls`:
    the negation of the test `float32(results[j].Score) < rule.Threshold`. -/
def keeps (lib : GoLib) (table : GoString → Option Rule) (ls : List GoString) (r : result) :
    Bool :=
  !decide (lib.float32 r.Score < (rulesFind table (ls.getD r.Index [])).1.Threshold)

/-- The line the callback formats for the prediction `r` of the model `name`. -/
def lineOf (lib : GoLib) (table : GoString → Option Rule) (name : GoString)
    (ls : List GoString) (r : result) : GoString :=
  lib.sprintfLine name (ls.getD r.Index []) (rulesFind table (ls.getD r.Index [])).1.Label r.Score

/-- The lines one model contributes, in words: a line for every kept prediction
    among the positions 0..5, then a line for the first kept prediction among
    the positions from 6 on, if there is one. -/
def acceptedLines (lib : GoLib) (table : GoString → Option Rule) (name : GoString)
    (ls : List GoString) (rs : List result) : List GoString :=
  (((rs.take 6).filter (keeps lib table ls)) ++
    ((rs.drop 6).find? (keeps lib table ls)).toList).map (lineOf lib table name ls)

/-- The invariant of the elements kept while a path is cleaned (`out`, last
    one first): no element is empty, is `.` or holds a separator; a rooted path
    keeps no `..`; and below a `..` there are only `..` elements. -/
def CleanKept (rooted : Bool) (out : List GoString) : Prop :=
  (∀ e ∈ out, e ≠ [] ∧ e ≠ ['.'] ∧ '/' ∉ e) ∧
  (rooted = true → ∀ e ∈ out, e ≠ ['.', '.']) ∧
  out.Pairwise (fun top below => top = ['.', '.'] → below = ['.', '.'])

instance (rooted : Bool) (out : List GoString) : Decidable (CleanKept rooted out) := by
  unfold CleanKept
  infer_instance

/-! ## `outputImage` and `addBanner` (lines 213-274) -/

/-- The Go type `image.Point`. -/
structure Point where
  X : Int
  Y : Int
deriving DecidableEq

/-- The Go type `image.Rectangle`: the points with `Min.X <= x < Max.X` and
    `Min.Y <= y < Max.Y`. -/
structure Rectangle where
  Min : Point
  Max : Point
deriving DecidableEq

/-- Go `image.ZP`, the zero point. -/
def ZP : Point := ⟨0, 0⟩

/-- Go `image.ZR`, the zero rectangle. -/
def ZR : Rectangle := ⟨ZP, ZP⟩

/-- Go `image.Rect(x0, y0, x1, y1)`: the coordinates are swapped where needed so
    that the rectangle is well-formed. -/
def Rect (x0 y0 x1 y1 : Int) : Rectangle :=
  { Min := ⟨if x0 > x1 then x1 else x0, if y0 > y1 then y1 else y0⟩,
    Max := ⟨if x0 > x1 then x0 else x1, if y0 > y1 then y0 else y1⟩ }

/-- Go `p.Sub(q)`. -/
def Point.Sub (p q : Point) : Point := ⟨p.X - q.X, p.Y - q.Y⟩

/-- Go `p.In(r)`. -/
def Point.In (p : Point) (r : Rectangle) : Bool :=
  decide (r.Min.X ≤ p.X) && decide (p.X < r.Max.X) &&
    decide (r.Min.Y ≤ p.Y) && decide (p.Y < r.Max.Y)

/-- Go `r.Dx()`, the width. -/
def Rectangle.Dx (r : Rectangle) : Int := r.Max.X - r.Min.X

/-- Go `r.Dy()`, the height. -/
def Rectangle.Dy (r : Rectangle) : Int := r.Max.Y - r.Min.Y

/-- Go `r.Empty()`. -/
def Rectangle.Empty (r : Rectangle) : Bool :=
  decide (r.Min.X ≥ r.Max.X) || decide (r.Min.Y ≥ r.Max.Y)

/-- Go `r.Add(p)`, the rectangle translated by `p`. -/
def Rectangle.Add (r : Rectangle) (p : Point) : Rectangle :=
  ⟨⟨r.Min.X + p.X, r.Min.Y + p.Y⟩, ⟨r.Max.X + p.X, r.Max.Y + p.Y⟩⟩

/-- Go `r.Intersect(s)`: the largest rectangle inside both, `image.ZR` when that
    is empty. -/
def Rectangle.Intersect (r s : Rectangle) : Rectangle :=
  let t : Rectangle :=
    { Min := ⟨if r.Min.X < s.Min.X then s.Min.X else r.Min.X,
              if r.Min.Y < s.Min.Y then s.Min.Y else r.Min.Y⟩,
      Max := ⟨if r.Max.X > s.Max.X then s.Max.X else r.Max.X,
              if r.Max.Y > s.Max.Y then s.Max.Y else r.Max.Y⟩ }
  if t.Empty then ZR else t

/-- A pixel of an `*image.RGBA`: the four bytes R, G, B, A. -/
structure RGBA where
  R : Nat
  G : Nat
  B : Nat
  A : Nat
deriving DecidableEq

/-- An image: its bounds and the colour `At(x, y)`, already in the colour model
    of the `*image.RGBA` it is drawn onto. -/
structure Image where
  Bounds : Rectangle
  At : Int → Int → RGBA

/-- Go `image.NewRGBA(r)`: every pixel is the zero colour. -/
def NewRGBA (r : Rectangle) : Image := { Bounds := r, At := fun _ _ => ⟨0, 0, 0, 0⟩ }

/-- The function `clip` of `image/draw` without a mask: the rectangle that is
    drawn, `r` cut down to the bounds of the destination and of the source, and
    the source point moved along with its corner. -/
def clip (dstBounds r srcBounds : Rectangle) (sp : Point) : Rectangle × Point :=
  let orig := r.Min
  let r1 := r.Intersect dstBounds
  let r2 := r1.Intersect (srcBounds.Add (orig.Sub sp))
  (r2, ⟨sp.X + (r2.Min.X - orig.X), sp.Y + (r2.Min.Y - orig.Y)⟩)

/-- Go `draw.Draw(dst, r, src, sp, draw.Src)`: inside the clipped rectangle every
    pixel of `dst` is replaced by the pixel of `src` it is aligned with. -/
def drawSrc (dst : Image) (r : Rectangle) (src : Image) (sp : Point) : Image :=
  let c := clip dst.Bounds r src.Bounds sp
  if c.1.Empty then dst
  else
    { Bounds := dst.Bounds,
      At := fun x y =>
        if Point.In ⟨x, y⟩ c.1 then src.At (c.2.X + (x - c.1.Min.X)) (c.2.Y + (y - c.1.Min.Y))
        else dst.At x y }

/-- The image `addBanner` draws the banner on: the blank canvas with the
    background `bgimg` drawn over it. -/
def canvasWithBackground (bgimg : Image) (width height : Int) : Image :=
  drawSrc (NewRGBA (Rect 0 0 width height)) (NewRGBA (Rect 0 0 width height)).Bounds bgimg ZP

/-- The function `addBanner`. `fill backImg width height` stands for
    `imaging.Fill(backImg, width, height, imaging.Center, imaging.Lanczos)`; the
    freetype context the function sets up is never drawn with and is left out. -/
def addBanner (fill : Image → Int → Int → Image) (backImg : Image)
    (width height bannerHeight : Int) : Image :=
  let img := canvasWithBackground (fill backImg width height) width height
  drawSrc img img.Bounds (NewRGBA (Rect 0 0 width bannerHeight)) ZP

/-- The rectangle of the canvas that the banner is drawn on: what `clip` leaves
    of the bounds of the canvas in the second `draw.Draw` of `addBanner`. -/
def bannerRegion (width height bannerHeight : Int) : Rectangle :=
  (clip (Rect 0 0 width height) (Rect 0 0 width height) (Rect 0 0 width bannerHeight) ZP).1

/-- Lines 224-230 of `outputImage`: the call of `addBanner` on the decoded
    image `bimg` for the accepted lines `labels`. -/
def outputImageBanner (fill : Image → Int → Int → Image) (bimg : Image)
    (labels : List GoString) : Image :=
  let fontSize : Int := 15
  -- use hard coded width to display full label
  let width : Int := 400
  let height := bimg.Bounds.Dy
  addBanner fill bimg width height ((labels.length + 1) * fontSize)

/-! ## `loadLabels` (lines 30-42) -/

/-- The constant `bufio.MaxScanTokenSize`, the size a `bufio.Scanner` lets its buffer grow
    to when no other buffer is set. -/
def maxScanTokenSize : Nat := 64 * 1024

/-- The function `dropCR` of `bufio`: one trailing carriage return is dropped. -/
def dropCR (data : GoString) : GoString :=
  if data.getLast? = some '\r' then data.dropLast else data

/-- The tokens a `bufio.Scanner` with the split function `bufio.ScanLines`
    yields, one for every call of `Scan()` that returns true, after the source
    of the Go standard library. `cur` holds the bytes of the line read so far.
    A line ends at a newline or at the end of a file that does not end in one;
    the scanner finds the end of a line only when the line, its newline
    included, fits the buffer of `maxTok` bytes, and otherwise `Scan()` returns
    false with `ErrTooLong` and the scan is over. -/
def scanLines (maxTok : Nat) : GoString → GoString → List GoString
  | [], cur =>
    if cur = [] then [] else if maxTok ≤ cur.length then [] else [dropCR cur]
  | c :: cs, cur =>
    if c = '\n' then
      if maxTok ≤ cur.length then [] else dropCR cur :: scanLines maxTok cs []
    else scanLines maxTok cs (cur ++ [c])

/-- The function `loadLabels`. `openFile` gives the content of the file of a
    name, or the error of `os.Open`. The error of the scanner is never asked
    for: the function returns what was scanned and a nil error. -/
def loadLabels (openFile : GoString → Except String GoString) (filename : GoString) :
    Except GoErr (List GoString) :=
  match openFile filename with
  | .error e => .error (.error e)
  | .ok content => .ok (scanLines maxScanTokenSize content [])

/-- The lines of a file, in words: the pieces between the newlines, in file
    order, without the empty piece after a final newline (or of an empty
    file). -/
def fileLines (content : GoString) : List GoString :=
  if (stringsSplit '\n' content).getLast? = some [] then (stringsSplit '\n' content).dropLast
  else stringsSplit '\n' content

/-! ## Concrete inputs for the examples -/

/-- A run of `calc` whose model answers with eight output bytes of value 255. -/
def env8 : CalcEnv :=
  { exampleEnv with invoke := fun _ => some [255, 255, 255, 255, 255, 255, 255, 255] }

/-- What `calc` returns on `env8`: eight entries of score 1. -/
def results8 : List result :=
  [⟨1, 0⟩, ⟨1, 1⟩, ⟨1, 2⟩, ⟨1, 3⟩, ⟨1, 4⟩, ⟨1, 5⟩, ⟨1, 6⟩, ⟨1, 7⟩]

/-- Eight labels, `a` to `h`. -/
def labels8 : List GoString := [['a'], ['b'], ['c'], ['d'], ['e'], ['f'], ['g'], ['h']]

/-- A rule table with one rule: label `g` needs a score of at least 2. -/
def tableG : GoString → Option Rule :=
  fun label => if label = ['g'] then some { Label := ['G'], Threshold := 2 } else none

/-- A decoded source image 640 pixels wide and 20 pixels high. -/
def lowImage : Image := NewRGBA (Rect 0 0 640 20)

/-- A stand-in for `imaging.Fill`: an image of the size asked for. -/
def plainFill : Image → Int → Int → Image := fun _ w h => NewRGBA (Rect 0 0 w h)

/-! # Theorems -/

/-! ## Lemmas on the post-processing -/

theorem score_lt_iff (v : Nat) : ((v : ℚ) / 255 < 0.2) ↔ v < 51 := by
  rw [div_lt_iff₀ (by norm_num : (0 : ℚ) < 255)]
  norm_num

theorem collect_aux (b : List Nat) (n : Nat) :
    (List.range n).foldl
      (fun results i =>
        let score : ℚ := (b.getD i 0 : ℚ) / 255
        if score < 0.2 then results else results ++ [{ Score := score, Index := i }])
      ([] : List result)
    = ((List.range n).filter (fun i => decide (51 ≤ b.getD i 0))).map
        (fun i => ({ Score := (b.getD i 0 : ℚ) / 255, Index := i } : result)) := by
  induction n with
  | zero => rfl
  | succ n ih =>
    rw [List.range_succ, List.foldl_append, ih, List.filter_append, List.map_append]
    by_cases h : b.getD n 0 < 51
    · have h2 : ((b.getD n 0 : ℚ) / 255 < 0.2) := (score_lt_iff _).2 h
      simp only [List.foldl_cons, List.foldl_nil, List.filter_cons, List.filter_nil, if_pos h2,
        decide_eq_true_eq, if_neg (Nat.not_le_of_lt h), List.map_nil, List.append_nil]
    · have h2 : ¬ ((b.getD n 0 : ℚ) / 255 < 0.2) := fun hh => h ((score_lt_iff _).1 hh)
      have h3 : 51 ≤ b.getD n 0 := Nat.le_of_not_lt h
      simp only [List.foldl_cons, List.foldl_nil, List.filter_cons, List.filter_nil, if_neg h2,
        decide_eq_true_eq, if_pos h3, List.map_cons, List.map_nil]

/-- The collected entries are exactly the classes whose byte is at least 51,
    in index order. -/
theorem collectResults_eq (b : List Nat) :
    collectResults b
    = ((List.range b.length).filter (fun i => decide (51 ≤ b.getD i 0))).map
        (fun i => ({ Score := (b.getD i 0 : ℚ) / 255, Index := i } : result)) :=
  collect_aux b b.length

theorem sortsBy_insertionSortSlice : SortsBy insertionSortSlice scoreLess := by
  intro l
  refine ⟨List.perm_insertionSort _ l, ?_⟩
  have : IsTotal result (fun a b => scoreLess b a = false) :=
    ⟨fun a b => by
      simp only [scoreLess, decide_eq_false_iff_not, gt_iff_lt, not_lt]
      exact le_total _ _⟩
  have : IsTrans result (fun a b => scoreLess b a = false) :=
    ⟨fun a b c => by
      simp only [scoreLess, decide_eq_false_iff_not, gt_iff_lt, not_lt]
      intro h1 h2
      exact le_trans h2 h1⟩
  exact List.sorted_insertionSort (fun a b => scoreLess b a = false) l

/-- When the run goes through, `calc` returns the post-processed output. -/
theorem calc_of_runs (lib : GoLib) (env : CalcEnv) (b : List Nat) (h : Runs lib env b) :
    calc_ lib env = .ok (calcResults lib b) := by
  obtain ⟨h1, h2, h3, h4, h5, h6, h8, h9⟩ := h
  have h10 : b.length ≠ 0 := by omega
  cases hf : fillInput lib env.pixel env.dx env.dy env.wantedChannels with
  | error e => simp [hf, Except.toOption] at h6
  | ok bb =>
    have h7 : env.invoke bb = some b := by simpa [hf, Except.toOption] using h6
    simp [calc_, h1, h2, h3, h4, h5, hf, h7, h9, h10]

/-- The runs that go through are the only ones on which `calc` returns a list. -/
theorem calc_ok_iff (lib : GoLib) (env : CalcEnv) (rs : List result) :
    calc_ lib env = .ok rs ↔ ∃ b, Runs lib env b ∧ rs = calcResults lib b := by
  constructor
  · intro h
    cases ho : env.openErr with
    | some e => simp [calc_, ho] at h
    | none =>
      cases hd : env.decodeErr with
      | some e => simp [calc_, ho, hd] at h
      | none =>
        cases hi : env.interpreterNil with
        | true => simp [calc_, ho, hd, hi] at h
        | false =>
          cases ha : env.allocateOK with
          | false => simp [calc_, ho, hd, hi, ha] at h
          | true =>
            by_cases ht : env.wantedType = lib.UInt8
            · cases hf : fillInput lib env.pixel env.dx env.dy env.wantedChannels with
              | error e => simp [calc_, ho, hd, hi, ha, ht, hf] at h
              | ok bb =>
                cases hv : env.invoke bb with
                | none => simp [calc_, ho, hd, hi, ha, ht, hf, hv] at h
                | some b =>
                  by_cases hl : b.length = 0
                  · simp [calc_, ho, hd, hi, ha, ht, hf, hv, hl] at h
                  · cases hc : env.copyOK with
                    | false => simp [calc_, ho, hd, hi, ha, ht, hf, hv, hl, hc] at h
                    | true =>
                      simp [calc_, ho, hd, hi, ha, ht, hf, hv, hl, hc] at h
                      exact ⟨b, ⟨ho, hd, hi, ha, ht, by simp [hf, Except.toOption, hv], by omega, hc⟩,
                        h.symm⟩
            · simp [calc_, ho, hd, hi, ha, ht] at h
  · rintro ⟨b, hr, rfl⟩
    exact calc_of_runs lib env b hr

theorem runs_exampleEnv : Runs exampleLib exampleEnv [255, 10, 60] := by
  decide

theorem mem_calcResults (lib : GoLib) (hs : SortsBy lib.sortSlice scoreLess) (b : List Nat)
    (r : result) :
    r ∈ calcResults lib b ↔
      r.Index < b.length ∧ 51 ≤ b.getD r.Index 0 ∧ r.Score = (b.getD r.Index 0 : ℚ) / 255 := by
  unfold calcResults
  rw [(hs (collectResults b)).1.mem_iff, collectResults_eq]
  simp only [List.mem_map, List.mem_filter, List.mem_range, decide_eq_true_eq]
  constructor
  · rintro ⟨i, ⟨hi, h51⟩, rfl⟩
    exact ⟨hi, h51, rfl⟩
  · rintro ⟨hi, h51, hsc⟩
    refine ⟨r.Index, ⟨hi, h51⟩, ?_⟩
    cases r
    simp_all

/-- C1. Whenever a run of `calc` reaches the post-processing with the output
    bytes `b` of the model (any length from 1 on, any values), `calc` returns a
    list that is non-increasing in `Score` and whose every entry has
    `Score >= 0.2`, the score being the byte of its class divided by 255. -/
theorem calc_sorted_and_above_threshold (lib : GoLib) (hs : SortsBy lib.sortSlice scoreLess)
    (env : CalcEnv) (b : List Nat) (hr : Runs lib env b) :
    ∃ rs, calc_ lib env = .ok rs ∧
      rs.Pairwise (fun a c => a.Score ≥ c.Score) ∧
      ∀ r ∈ rs, r.Score ≥ 0.2 ∧ r.Score = (b.getD r.Index 0 : ℚ) / 255 := by
  refine ⟨calcResults lib b, calc_of_runs lib env b hr, ?_, ?_⟩
  · refine (hs (collectResults b)).2.imp ?_
    intro a c h
    simpa [scoreLess] using h
  · intro r hr
    obtain ⟨-, h51, hsc⟩ := (mem_calcResults lib hs b r).1 hr
    refine ⟨?_, hsc⟩
    rw [hsc, ge_iff_le, ← not_lt, score_lt_iff]
    omega

/-- Witness for C1: the run `exampleEnv` with the output bytes 255, 10, 60. -/
theorem calc_sorted_and_above_threshold_witness :
    Runs exampleLib exampleEnv [255, 10, 60] ∧
    ∃ rs, calc_ exampleLib exampleEnv = .ok rs ∧
      rs.Pairwise (fun a c => a.Score ≥ c.Score) ∧
      ∀ r ∈ rs, r.Score ≥ 0.2 ∧ r.Score = (([255, 10, 60] : List Nat).getD r.Index 0 : ℚ) / 255 :=
  ⟨runs_exampleEnv,
   calc_sorted_and_above_threshold exampleLib sortsBy_insertionSortSlice exampleEnv [255, 10, 60]
     runs_exampleEnv⟩

theorem score_ge_iff (v : Nat) : ((v : ℚ) / 255 ≥ 0.2) ↔ 51 ≤ v := by
  rw [ge_iff_le, ← not_lt, score_lt_iff]
  omega

theorem collectResults_eq_claimed (b : List Nat) :
    collectResults b
    = ((List.range b.length).filter (fun i => decide ((b.getD i 0 : ℚ) / 255 ≥ 0.2))).map
        (fun i => ({ Score := (b.getD i 0 : ℚ) / 255, Index := i } : result)) := by
  rw [collectResults_eq]
  congr 1
  apply List.filter_congr
  intro i _
  simp only [decide_eq_decide]
  exact (score_ge_iff _).symm

theorem collectResults_index (b : List Nat) :
    (collectResults b).map result.Index
    = (List.range b.length).filter (fun i => decide (51 ≤ b.getD i 0)) := by
  rw [collectResults_eq, List.map_map]
  exact List.map_id _

/-- C9. Whenever a run of `calc` reaches the post-processing with output bytes
    `b` (length `n >= 1`, every value a byte), the list `calc` returns is a
    permutation of `[(b[i]/255, i) | 0 <= i < n, b[i]/255 >= 0.2]`; the condition
    is the same as `b[i] >= 51`; the class indices in the list are pairwise
    different and are exactly those `i < n` with `b[i] >= 51`; every entry has
    `Index < n`, `Score = b[Index]/255` and `0.2 <= Score <= 1`. -/
theorem calc_perm_of_filtered (lib : GoLib) (hs : SortsBy lib.sortSlice scoreLess)
    (env : CalcEnv) (b : List Nat) (hb : ∀ v ∈ b, v < 256) (hr : Runs lib env b) :
    ∃ rs, calc_ lib env = .ok rs ∧
      rs.Perm (((List.range b.length).filter
          (fun i => decide ((b.getD i 0 : ℚ) / 255 ≥ 0.2))).map
          (fun i => ({ Score := (b.getD i 0 : ℚ) / 255, Index := i } : result))) ∧
      (∀ i, ((b.getD i 0 : ℚ) / 255 ≥ 0.2 ↔ 51 ≤ b.getD i 0)) ∧
      (rs.map result.Index).Nodup ∧
      (∀ i, i ∈ rs.map result.Index ↔ i < b.length ∧ 51 ≤ b.getD i 0) ∧
      ∀ r ∈ rs, r.Index < b.length ∧ r.Score = (b.getD r.Index 0 : ℚ) / 255 ∧
        0.2 ≤ r.Score ∧ r.Score ≤ 1 := by
  have hp : (calcResults lib b).Perm (collectResults b) := (hs (collectResults b)).1
  have hpi := hp.map result.Index
  refine ⟨calcResults lib b, calc_of_runs lib env b hr, ?_, fun i => score_ge_iff _, ?_, ?_, ?_⟩
  · rw [← collectResults_eq_claimed]
    exact hp
  · rw [hpi.nodup_iff, collectResults_index]
    exact (List.nodup_range _).filter _
  · intro i
    rw [hpi.mem_iff, collectResults_index]
    simp [List.mem_filter]
  · intro r hmem
    obtain ⟨hlt, h51, hsc⟩ := (mem_calcResults lib hs b r).1 hmem
    refine ⟨hlt, hsc, ?_, ?_⟩
    · rw [hsc]
      exact (score_ge_iff _).2 h51
    · have h256 : b.getD r.Index 0 < 256 := by
        rw [List.getD_eq_getElem _ _ hlt]
        exact hb _ (List.getElem_mem _)
      rw [hsc, div_le_one (by norm_num : (0 : ℚ) < 255)]
      have : b.getD r.Index 0 ≤ 255 := by omega
      exact_mod_cast this

/-- Witness for C9: the run `exampleEnv` with the output bytes 255, 10, 60. -/
theorem calc_perm_of_filtered_witness :
    (∀ v ∈ ([255, 10, 60] : List Nat), v < 256) ∧ Runs exampleLib exampleEnv [255, 10, 60] ∧
    ∃ rs, calc_ exampleLib exampleEnv = .ok rs ∧
      (rs.map result.Index).Nodup ∧
      (∀ i, i ∈ rs.map result.Index ↔
        i < ([255, 10, 60] : List Nat).length ∧ 51 ≤ ([255, 10, 60] : List Nat).getD i 0) := by
  have hb : ∀ v ∈ ([255, 10, 60] : List Nat), v < 256 := by decide
  obtain ⟨rs, h1, -, -, h4, h5, -⟩ :=
    calc_perm_of_filtered exampleLib sortsBy_insertionSortSlice exampleEnv [255, 10, 60] hb
      runs_exampleEnv
  exact ⟨hb, runs_exampleEnv, rs, h1, h4, h5⟩

/-! ## Lemmas on the input path -/

theorem pixel_lt (dx dy x y : Nat) (hx : x < dx) (hy : y < dy) : y * dx + x < dx * dy := by
  have h : (y + 1) * dx ≤ dy * dx := Nat.mul_le_mul_right dx hy
  rw [Nat.mul_comm dx dy]
  have h2 : (y + 1) * dx = y * dx + dx := by ring
  omega

theorem writeIndex_lt (dx dy x y c : Nat) (hx : x < dx) (hy : y < dy) (hc : c < 3) :
    writeIndex dx x y c < dx * dy * 3 := by
  have := pixel_lt dx dy x y hx hy
  unfold writeIndex
  omega

theorem writeIndex_inj (dx x y c x2 y2 c2 : Nat) (hx : x < dx) (hc : c < 3)
    (hx2 : x2 < dx) (hc2 : c2 < 3) (h : writeIndex dx x y c = writeIndex dx x2 y2 c2) :
    x = x2 ∧ y = y2 ∧ c = c2 := by
  unfold writeIndex at h
  have hcc : c = c2 := by omega
  have hp : y * dx + x = y2 * dx + x2 := by omega
  have hxx : x = x2 := by
    have h1 : (y * dx + x) % dx = x := by
      rw [Nat.add_comm, Nat.add_mul_mod_self_right, Nat.mod_eq_of_lt hx]
    have h2 : (y2 * dx + x2) % dx = x2 := by
      rw [Nat.add_comm, Nat.add_mul_mod_self_right, Nat.mod_eq_of_lt hx2]
    rw [← h1, ← h2, hp]
  have hyy : y = y2 := by
    have hd : 0 < dx := by omega
    subst hxx
    have : y * dx = y2 * dx := by omega
    exact Nat.eq_of_mul_eq_mul_right hd this
  exact ⟨hxx, hyy, hcc⟩

theorem writeIndex_surj (dx dy i : Nat) (hi : i < dx * dy * 3) :
    i / 3 % dx < dx ∧ i / 3 / dx < dy ∧ i % 3 < 3 ∧
      writeIndex dx (i / 3 % dx) (i / 3 / dx) (i % 3) = i := by
  have hd : 0 < dx := by
    rcases Nat.eq_zero_or_pos dx with h | h
    · subst h; simp at hi
    · exact h
  have h3 : i / 3 < dx * dy := by
    rw [Nat.div_lt_iff_lt_mul (by norm_num)]
    exact hi
  refine ⟨Nat.mod_lt _ hd, ?_, Nat.mod_lt _ (by norm_num), ?_⟩
  · rw [Nat.div_lt_iff_lt_mul hd, Nat.mul_comm dy dx]
    exact h3
  · unfold writeIndex
    rw [Nat.mul_comm (i / 3 / dx) dx, Nat.div_add_mod, Nat.mul_comm, Nat.div_add_mod]

theorem inner_order (dx y n : Nat) :
    (List.range n).flatMap (fun x =>
      [writeIndex dx x y 0, writeIndex dx x y 1, writeIndex dx x y 2])
    = List.range' (y * dx * 3) (n * 3) := by
  induction n with
  | zero => simp
  | succ n ih =>
    rw [List.range_succ, List.flatMap_append, ih]
    have h : (n + 1) * 3 = 3 + n * 3 := by ring
    rw [h, ← List.range'_append_1]
    simp only [List.flatMap_cons, List.flatMap_nil, List.append_nil, writeIndex, List.range',
      Nat.add_zero]
    have e1 : (y * dx + n) * 3 = y * dx * 3 + n * 3 := by ring
    rw [e1]

theorem writeOrder_eq_range (dx dy : Nat) : writeOrder dx dy = List.range (dx * dy * 3) := by
  unfold writeOrder
  simp only [inner_order]
  have key : ∀ m, (List.range m).flatMap (fun y => List.range' (y * dx * 3) (dx * 3))
      = List.range (dx * m * 3) := by
    intro m
    induction m with
    | zero => simp
    | succ m ih =>
      rw [List.range_succ, List.flatMap_append, ih]
      have h : dx * (m + 1) * 3 = dx * 3 + dx * m * 3 := by ring
      rw [h, List.range_eq_range', List.range_eq_range', ← List.range'_append_1]
      simp only [List.flatMap_cons, List.flatMap_nil, List.append_nil, Nat.zero_add]
      have e1 : m * dx * 3 = dx * m * 3 := by ring
      rw [e1]
  exact key dy

theorem getD_set_nat (l : List Nat) (i j v : Nat) (hi : i < l.length) :
    (l.set i v).getD j 0 = if j = i then v else l.getD j 0 := by
  simp only [List.getD_eq_getElem?_getD, List.getElem?_set]
  by_cases h : i = j
  · subst h
    simp [hi]
  · have h2 : ¬ j = i := fun e => h e.symm
    simp [h, h2]

theorem storeByte_ok (bb : List Nat) (i v : Nat) (h : i < bb.length) :
    storeByte bb i v = .ok (bb.set i v) := by
  simp [storeByte, h]

theorem inputByte_at (lib : GoLib) (pixel : Nat → Nat → Nat × Nat × Nat) (dx x y c : Nat)
    (hx : x < dx) (hc : c < 3) :
    inputByte lib pixel dx ((y * dx + x) * 3 + c) = toByte lib (channel (pixel x y) c) := by
  unfold inputByte
  have h1 : ((y * dx + x) * 3 + c) / 3 = y * dx + x := by omega
  have h2 : ((y * dx + x) * 3 + c) % 3 = c := by omega
  have h3 : (y * dx + x) % dx = x := by
    rw [Nat.add_comm, Nat.add_mul_mod_self_right, Nat.mod_eq_of_lt hx]
  have h4 : (y * dx + x) / dx = y := by
    rw [Nat.add_comm, Nat.add_mul_div_right _ _ (by omega : 0 < dx), Nat.div_eq_of_lt hx,
      Nat.zero_add]
  rw [h1, h2, h3, h4]

theorem writePixel_inv (lib : GoLib) (pixel : Nat → Nat → Nat × Nat × Nat) (dx dy y x : Nat)
    (bb : List Nat) (hx : x < dx) (hy : y < dy) (hlen : bb.length = dx * dy * 3)
    (hpre : ∀ i, i < (y * dx + x) * 3 → bb.getD i 0 = inputByte lib pixel dx i) :
    ∃ bb2, writePixel lib pixel dx y bb x = .ok bb2 ∧ bb2.length = dx * dy * 3 ∧
      ∀ i, i < (y * dx + x + 1) * 3 → bb2.getD i 0 = inputByte lib pixel dx i := by
  have hk := pixel_lt dx dy x y hx hy
  have l0 : (y * dx + x) * 3 + 0 < bb.length := by omega
  have l1 : (y * dx + x) * 3 + 1 < (bb.set ((y * dx + x) * 3 + 0)
      (toByte lib (pixel x y).1)).length := by
    rw [List.length_set]; omega
  have l2 : (y * dx + x) * 3 + 2 < ((bb.set ((y * dx + x) * 3 + 0)
      (toByte lib (pixel x y).1)).set ((y * dx + x) * 3 + 1)
      (toByte lib (pixel x y).2.1)).length := by
    rw [List.length_set, List.length_set]; omega
  refine ⟨((bb.set ((y * dx + x) * 3 + 0) (toByte lib (pixel x y).1)).set
      ((y * dx + x) * 3 + 1) (toByte lib (pixel x y).2.1)).set
      ((y * dx + x) * 3 + 2) (toByte lib (pixel x y).2.2), ?_, ?_, ?_⟩
  · unfold writePixel writeIndex
    rw [storeByte_ok _ _ _ l0]
    simp only
    rw [storeByte_ok _ _ _ l1]
    simp only
    rw [storeByte_ok _ _ _ l2]
  · simp only [List.length_set]
    exact hlen
  · intro i hi
    rw [getD_set_nat _ _ _ _ l2, getD_set_nat _ _ _ _ l1, getD_set_nat _ _ _ _ l0]
    by_cases e2 : i = (y * dx + x) * 3 + 2
    · rw [if_pos e2, e2, inputByte_at lib pixel dx x y 2 hx (by norm_num)]
      simp [channel]
    · rw [if_neg e2]
      by_cases e1 : i = (y * dx + x) * 3 + 1
      · rw [if_pos e1, e1, inputByte_at lib pixel dx x y 1 hx (by norm_num)]
        simp [channel]
      · rw [if_neg e1]
        by_cases e0 : i = (y * dx + x) * 3 + 0
        · rw [if_pos e0, e0, inputByte_at lib pixel dx x y 0 hx (by norm_num)]
          simp [channel]
        · rw [if_neg e0]
          apply hpre
          omega

theorem fillRow_inv (lib : GoLib) (pixel : Nat → Nat → Nat × Nat × Nat) (dx dy y : Nat)
    (bb : List Nat) (hy : y < dy) (hlen : bb.length = dx * dy * 3)
    (hpre : ∀ i, i < (y * dx) * 3 → bb.getD i 0 = inputByte lib pixel dx i) (n : Nat)
    (hn : n ≤ dx) :
    ∃ bb2, forLoop n (writePixel lib pixel dx y) bb = .ok bb2 ∧ bb2.length = dx * dy * 3 ∧
      ∀ i, i < (y * dx + n) * 3 → bb2.getD i 0 = inputByte lib pixel dx i := by
  induction n with
  | zero => exact ⟨bb, rfl, hlen, hpre⟩
  | succ n ih =>
    obtain ⟨bb1, h1, hl1, hp1⟩ := ih (by omega)
    obtain ⟨bb2, h2, hl2, hp2⟩ := writePixel_inv lib pixel dx dy y n bb1 (by omega) hy hl1 hp1
    refine ⟨bb2, ?_, hl2, hp2⟩
    simp only [forLoop, h1]
    exact h2

theorem fillInput_inv (lib : GoLib) (pixel : Nat → Nat → Nat × Nat × Nat) (dx dy m : Nat)
    (hm : m ≤ dy) :
    ∃ bb, forLoop m (fun bb y => forLoop dx (writePixel lib pixel dx y) bb)
        (List.replicate (dx * dy * 3) 0) = .ok bb ∧ bb.length = dx * dy * 3 ∧
      ∀ i, i < (m * dx) * 3 → bb.getD i 0 = inputByte lib pixel dx i := by
  induction m with
  | zero =>
    refine ⟨_, rfl, List.length_replicate _ _, ?_⟩
    intro i hi
    omega
  | succ m ih =>
    obtain ⟨bb1, h1, hl1, hp1⟩ := ih (by omega)
    obtain ⟨bb2, h2, hl2, hp2⟩ :=
      fillRow_inv lib pixel dx dy m bb1 (by omega) hl1 hp1 dx (Nat.le_refl _)
    refine ⟨bb2, ?_, hl2, ?_⟩
    · simp only [forLoop, h1]
      exact h2
    · intro i hi
      apply hp2
      have : (m + 1) * dx = m * dx + dx := by ring
      omega

/-- With three channels the input path fills the whole buffer and never panics. -/
theorem fillInput_three (lib : GoLib) (pixel : Nat → Nat → Nat × Nat × Nat) (dx dy : Nat) :
    ∃ bb, fillInput lib pixel dx dy 3 = .ok bb ∧ bb.length = dx * dy * 3 ∧
      ∀ i, i < dx * dy * 3 → bb.getD i 0 = inputByte lib pixel dx i := by
  obtain ⟨bb, h1, h2, h3⟩ := fillInput_inv lib pixel dx dy dy (Nat.le_refl _)
  refine ⟨bb, h1, h2, ?_⟩
  intro i hi
  apply h3
  rw [Nat.mul_comm dy dx]
  exact hi

/-- C10. In the unsigned-byte input path of `calc`, when `wantedChannels` is 3,
    for every size `dx`, `dy` of the resized image: every store index
    `(y*dx+x)*3+c` with `x < dx`, `y < dy`, `c < 3` is inside the buffer of
    length `dx*dy*wantedChannels`; every index of the buffer is the store index of
    exactly one triple `(x, y, c)`; the stores, in the order the loops make them
    (rows, then columns, then R, G, B), go to the indices `0, 1, 2, ...` one after
    the other; and the loops end without a panic, leaving at `(y*dx+x)*3+c` the
    byte of channel `c` of pixel `(x, y)`. -/
theorem input_write_index_bijection (lib : GoLib) (pixel : Nat → Nat → Nat × Nat × Nat)
    (dx dy wantedChannels : Nat) (hch : wantedChannels = 3) :
    (∀ x y c, x < dx → y < dy → c < 3 → writeIndex dx x y c < dx * dy * wantedChannels) ∧
    (∀ i, i < dx * dy * wantedChannels →
      ∃ x y c, x < dx ∧ y < dy ∧ c < 3 ∧ writeIndex dx x y c = i ∧
        ∀ x2 y2 c2, x2 < dx → y2 < dy → c2 < 3 → writeIndex dx x2 y2 c2 = i →
          x2 = x ∧ y2 = y ∧ c2 = c) ∧
    writeOrder dx dy = List.range (dx * dy * wantedChannels) ∧
    ∃ bb, fillInput lib pixel dx dy wantedChannels = .ok bb ∧
      bb.length = dx * dy * wantedChannels ∧
      ∀ x y c, x < dx → y < dy → c < 3 →
        bb.getD (writeIndex dx x y c) 0 = toByte lib (channel (pixel x y) c) := by
  subst hch
  refine ⟨fun x y c hx hy hc => writeIndex_lt dx dy x y c hx hy hc, ?_,
    writeOrder_eq_range dx dy, ?_⟩
  · intro i hi
    obtain ⟨h1, h2, h3, h4⟩ := writeIndex_surj dx dy i hi
    refine ⟨i / 3 % dx, i / 3 / dx, i % 3, h1, h2, h3, h4, ?_⟩
    intro x2 y2 c2 hx2 _ hc2 heq
    exact writeIndex_inj dx x2 y2 c2 _ _ _ hx2 hc2 h1 h3 (heq.trans h4.symm)
  · obtain ⟨bb, hb1, hb2, hb3⟩ := fillInput_three lib pixel dx dy
    refine ⟨bb, hb1, hb2, ?_⟩
    intro x y c hx hy hc
    rw [hb3 _ (writeIndex_lt dx dy x y c hx hy hc)]
    exact inputByte_at lib pixel dx x y c hx hc

/-- Witness for C10: a resized image of 2 by 2 pixels and three channels. -/
theorem input_write_index_bijection_witness :
    (3 : Nat) = 3 ∧ writeOrder 2 2 = List.range (2 * 2 * 3) ∧
    ∃ bb, fillInput exampleLib (fun x y => (x * 255, y * 255, 510)) 2 2 3 = .ok bb ∧
      bb.length = 2 * 2 * 3 :=
  ⟨rfl,
   (input_write_index_bijection exampleLib (fun x y => (x * 255, y * 255, 510)) 2 2 3 rfl).2.2.1,
   (input_write_index_bijection exampleLib (fun x y => (x * 255, y * 255, 510)) 2 2 3
      rfl).2.2.2.imp (fun _ h => ⟨h.1, h.2.1⟩)⟩

/-! ## The sample conversion `byte(float64(r) / 255.0)` -/

theorem toByte_eq_div (lib : GoLib) (r : Nat) (h : r < 65280) : toByte lib r = r / 255 := by
  have : r / 255 < 256 := by omega
  simp [toByte, this]

theorem toByte_le_one_iff (lib : GoLib) (r : Nat) (h : r < 65280) :
    toByte lib r ≤ 1 ↔ r < 510 := by
  rw [toByte_eq_div lib r h]
  omega

theorem card_toByte_le_one (lib : GoLib) :
    ((Finset.range 65536).filter (fun r => toByte lib r ≤ 1)).card ≤ 766 := by
  have hsub : (Finset.range 65536).filter (fun r => toByte lib r ≤ 1)
      ⊆ Finset.range 510 ∪ Finset.Ico 65280 65536 := by
    intro r hr
    simp only [Finset.mem_filter, Finset.mem_range] at hr
    simp only [Finset.mem_union, Finset.mem_range, Finset.mem_Ico]
    by_cases h : r < 65280
    · left
      exact (toByte_le_one_iff lib r h).1 hr.2
    · right
      omega
  calc ((Finset.range 65536).filter (fun r => toByte lib r ≤ 1)).card
      ≤ (Finset.range 510 ∪ Finset.Ico 65280 65536).card := Finset.card_le_card hsub
    _ ≤ (Finset.range 510).card + (Finset.Ico 65280 65536).card := Finset.card_union_le _ _
    _ = 766 := by simp

/-- C8 as stated fails: with the bytes computed as `calc` computes them, the
    sample 32768 is stored as 128, and the samples stored as 0 or 1 are not more
    than half of the 65536 possible samples. -/
theorem toByte_collapse_counterexample :
    toByte exampleLib 32768 = 128 ∧
    ¬ (65536 / 2 < ((Finset.range 65536).filter (fun r => toByte exampleLib r ≤ 1)).card) := by
  refine ⟨by decide, ?_⟩
  have := card_toByte_le_one exampleLib
  omega

/-- C8, amended. In the unsigned-byte input path each 16-bit sample `r` is
    divided by 255 and truncated: for `r < 65280` the byte stored is the
    quotient `r / 255`, which is 0 or 1 exactly when `r < 510`; every byte value
    0..255 is the image of some sample; and at most 766 of the 65536 samples are
    stored as 0 or 1. -/
theorem toByte_is_quotient (lib : GoLib) :
    (∀ r, r < 65280 → toByte lib r = r / 255) ∧
    (∀ r, r < 65280 → (toByte lib r ≤ 1 ↔ r < 510)) ∧
    (∀ v, v < 256 → ∃ r, r < 65536 ∧ toByte lib r = v) ∧
    ((Finset.range 65536).filter (fun r => toByte lib r ≤ 1)).card ≤ 766 := by
  refine ⟨toByte_eq_div lib, toByte_le_one_iff lib, ?_, card_toByte_le_one lib⟩
  intro v hv
  refine ⟨v * 255, by omega, ?_⟩
  rw [toByte_eq_div lib _ (by omega)]
  omega

/-! ## Lemmas on the rule filter -/

theorem ruleLoop_cons (lib : GoLib) (table : GoString → Option Rule)
    (labels : List (List GoString)) (modelName : List GoString) (i : Nat)
    (ls : List GoString) (name : GoString) (hl : labels[i]? = some ls)
    (hn : modelName[i]? = some name) (r : result) (rest : List result) (j : Nat)
    (texts : List GoString) (hr : r.Index < ls.length) :
    ruleLoop lib table labels modelName i (r :: rest) j texts =
      if keeps lib table ls r = true then
        if j > 5 then .ok (texts ++ [lineOf lib table name ls r])
        else ruleLoop lib table labels modelName i rest (j + 1)
          (texts ++ [lineOf lib table name ls r])
      else ruleLoop lib table labels modelName i rest (j + 1) texts := by
  have hget : ls[r.Index]? = some (ls.getD r.Index []) := by
    rw [List.getD_eq_getElem _ _ hr]
    exact List.getElem?_eq_getElem hr
  rw [ruleLoop]
  simp only [hl, hget, hn, keeps, lineOf]
  by_cases hlt : lib.float32 r.Score < (rulesFind table (ls.getD r.Index [])).1.Threshold
  · rw [if_pos hlt, decide_eq_true hlt]
    rfl
  · rw [if_neg hlt, decide_eq_false hlt]
    rfl

/-- From position 6 on the loop appends the line of the first kept entry and
    stops. -/
theorem ruleLoop_tail (lib : GoLib) (table : GoString → Option Rule)
    (labels : List (List GoString)) (modelName : List GoString) (i : Nat)
    (ls : List GoString) (name : GoString) (hl : labels[i]? = some ls)
    (hn : modelName[i]? = some name) (rs : List result) :
    ∀ (j : Nat) (texts : List GoString), 6 ≤ j → (∀ r ∈ rs, r.Index < ls.length) →
      ruleLoop lib table labels modelName i rs j texts =
        .ok (texts ++ ((rs.find? (keeps lib table ls)).toList.map (lineOf lib table name ls))) := by
  induction rs with
  | nil =>
    intro j texts _ _
    simp [ruleLoop]
  | cons r rest ih =>
    intro j texts hj hidx
    rw [ruleLoop_cons lib table labels modelName i ls name hl hn r rest j texts
      (hidx r (List.mem_cons_self _ _))]
    by_cases hk : keeps lib table ls r = true
    · have h5 : j > 5 := by omega
      simp [hk, h5, List.find?_cons]
    · rw [if_neg hk, ih (j + 1) texts (by omega) (fun q hq => hidx q (List.mem_cons_of_mem _ hq))]
      simp [List.find?_cons, hk]

/-- The loop from any position up to 6. -/
theorem ruleLoop_front (lib : GoLib) (table : GoString → Option Rule)
    (labels : List (List GoString)) (modelName : List GoString) (i : Nat)
    (ls : List GoString) (name : GoString) (hl : labels[i]? = some ls)
    (hn : modelName[i]? = some name) (rs : List result) :
    ∀ (j : Nat) (texts : List GoString), j ≤ 6 → (∀ r ∈ rs, r.Index < ls.length) →
      ruleLoop lib table labels modelName i rs j texts =
        .ok (texts ++ (((rs.take (6 - j)).filter (keeps lib table ls)) ++
          ((rs.drop (6 - j)).find? (keeps lib table ls)).toList).map
            (lineOf lib table name ls)) := by
  induction rs with
  | nil =>
    intro j texts _ _
    simp [ruleLoop]
  | cons r rest ih =>
    intro j texts hj hidx
    rcases Nat.lt_or_ge j 6 with hlt | hge
    · obtain ⟨k, hk⟩ : ∃ k, 6 - j = k + 1 := ⟨5 - j, by omega⟩
      have hk2 : 6 - (j + 1) = k := by omega
      rw [ruleLoop_cons lib table labels modelName i ls name hl hn r rest j texts
        (hidx r (List.mem_cons_self _ _))]
      have h5 : ¬ j > 5 := by omega
      by_cases hkp : keeps lib table ls r = true
      · rw [if_pos hkp, if_neg h5,
          ih (j + 1) _ (by omega) (fun q hq => hidx q (List.mem_cons_of_mem _ hq)), hk, hk2]
        simp [List.take_succ_cons, List.filter_cons, hkp]
      · rw [if_neg hkp,
          ih (j + 1) _ (by omega) (fun q hq => hidx q (List.mem_cons_of_mem _ hq)), hk, hk2]
        simp [List.take_succ_cons, List.filter_cons, hkp]
    · have h6 : 6 - j = 0 := by omega
      rw [h6, ruleLoop_tail lib table labels modelName i ls name hl hn (r :: rest) j texts hge hidx]
      simp

/-- The lines the loop of one model appends. -/
theorem ruleLoop_eq (lib : GoLib) (table : GoString → Option Rule)
    (labels : List (List GoString)) (modelName : List GoString) (i : Nat)
    (ls : List GoString) (name : GoString) (hl : labels[i]? = some ls)
    (hn : modelName[i]? = some name) (rs : List result) (texts : List GoString)
    (hidx : ∀ r ∈ rs, r.Index < ls.length) :
    ruleLoop lib table labels modelName i rs 0 texts =
      .ok (texts ++ acceptedLines lib table name ls rs) :=
  ruleLoop_front lib table labels modelName i ls name hl hn rs 0 texts (by omega) hidx

theorem acceptedLines_length (lib : GoLib) (table : GoString → Option Rule) (name : GoString)
    (ls : List GoString) (rs : List result) :
    (acceptedLines lib table name ls rs).length ≤ 7 := by
  unfold acceptedLines
  rw [List.length_map, List.length_append]
  have h1 : ((rs.take 6).filter (keeps lib table ls)).length ≤ 6 :=
    le_trans (List.length_filter_le _ _) (by rw [List.length_take]; omega)
  have h2 : ((rs.drop 6).find? (keeps lib table ls)).toList.length ≤ 1 := by
    cases (rs.drop 6).find? (keeps lib table ls) <;> simp
  omega

theorem ruleLoop_append_front (lib : GoLib) (table : GoString → Option Rule)
    (labels : List (List GoString)) (modelName : List GoString) (i : Nat)
    (ls : List GoString) (name : GoString) (hl : labels[i]? = some ls)
    (hn : modelName[i]? = some name) (rest : List result) (front : List result) :
    ∀ (j : Nat) (texts : List GoString), j + front.length ≤ 6 →
      (∀ r ∈ front, r.Index < ls.length) →
      ruleLoop lib table labels modelName i (front ++ rest) j texts =
        ruleLoop lib table labels modelName i rest (j + front.length)
          (texts ++ (front.filter (keeps lib table ls)).map (lineOf lib table name ls)) := by
  induction front with
  | nil =>
    intro j texts _ _
    simp
  | cons r front ih =>
    intro j texts hj hidx
    have hlen : (r :: front).length = front.length + 1 := rfl
    rw [List.cons_append, ruleLoop_cons lib table labels modelName i ls name hl hn r _ j texts
      (hidx r (List.mem_cons_self _ _))]
    have h5 : ¬ j > 5 := by omega
    have e : j + 1 + front.length = j + (r :: front).length := by omega
    by_cases hk : keeps lib table ls r = true
    · rw [if_pos hk, if_neg h5,
        ih (j + 1) _ (by omega) (fun q hq => hidx q (List.mem_cons_of_mem _ hq)), e]
      simp [List.filter_cons, hk]
    · rw [if_neg hk, ih (j + 1) _ (by omega) (fun q hq => hidx q (List.mem_cons_of_mem _ hq)), e]
      simp [List.filter_cons, hk]

theorem ruleLoop_append_rejected (lib : GoLib) (table : GoString → Option Rule)
    (labels : List (List GoString)) (modelName : List GoString) (i : Nat)
    (ls : List GoString) (name : GoString) (hl : labels[i]? = some ls)
    (hn : modelName[i]? = some name) (rest : List result) (mid : List result) :
    ∀ (j : Nat) (texts : List GoString), (∀ r ∈ mid, r.Index < ls.length) →
      (∀ r ∈ mid, keeps lib table ls r = false) →
      ruleLoop lib table labels modelName i (mid ++ rest) j texts =
        ruleLoop lib table labels modelName i rest (j + mid.length) texts := by
  induction mid with
  | nil =>
    intro j texts _ _
    simp
  | cons r mid ih =>
    intro j texts hidx hrej
    have hk : ¬ keeps lib table ls r = true := by
      rw [hrej r (List.mem_cons_self _ _)]
      simp
    have e : j + 1 + mid.length = j + (r :: mid).length := by
      simp only [List.length_cons]; omega
    rw [List.cons_append, ruleLoop_cons lib table labels modelName i ls name hl hn r _ j texts
      (hidx r (List.mem_cons_self _ _)), if_neg hk,
      ih (j + 1) texts (fun q hq => hidx q (List.mem_cons_of_mem _ hq))
        (fun q hq => hrej q (List.mem_cons_of_mem _ hq)), e]

/-- Whatever follows the first kept entry at a position from 6 on is not read. -/
theorem ruleLoop_stops (lib : GoLib) (table : GoString → Option Rule)
    (labels : List (List GoString)) (modelName : List GoString) (i : Nat)
    (ls : List GoString) (name : GoString) (hl : labels[i]? = some ls)
    (hn : modelName[i]? = some name) (front mid post : List result) (r : result)
    (texts : List GoString) (hfront : front.length = 6)
    (hidx : ∀ q ∈ front ++ mid ++ [r], q.Index < ls.length)
    (hrej : ∀ q ∈ mid, keeps lib table ls q = false) (hk : keeps lib table ls r = true) :
    ruleLoop lib table labels modelName i (front ++ mid ++ r :: post) 0 texts =
      .ok (texts ++ ((front.filter (keeps lib table ls)).map (lineOf lib table name ls) ++
        [lineOf lib table name ls r])) := by
  have h1 : ∀ q ∈ front, q.Index < ls.length := fun q hq => hidx q (by simp [hq])
  have h2 : ∀ q ∈ mid, q.Index < ls.length := fun q hq => hidx q (by simp [hq])
  have h3 : r.Index < ls.length := hidx r (by simp)
  rw [List.append_assoc,
    ruleLoop_append_front lib table labels modelName i ls name hl hn _ front 0 texts
      (by omega) h1,
    ruleLoop_append_rejected lib table labels modelName i ls name hl hn _ mid _ _ h2 hrej,
    ruleLoop_cons lib table labels modelName i ls name hl hn r post _ _ h3, if_pos hk,
    if_pos (by omega), List.append_assoc]

/-- The lines of one visited file: the lines of the models, one model after
    the other. -/
theorem collectTexts_eq (lib : GoLib) (table : GoString → Option Rule) (envs : List CalcEnv)
    (labels : List (List GoString)) (modelName : List GoString)
    (res : Nat → List result) (lab : Nat → List GoString) (nm : Nat → GoString)
    (hcalc : ∀ i, i < envs.length → ∃ env, envs[i]? = some env ∧ calc_ lib env = .ok (res i))
    (hl : ∀ i, i < envs.length → labels[i]? = some (lab i))
    (hn : ∀ i, i < envs.length → modelName[i]? = some (nm i))
    (hidx : ∀ i, i < envs.length → ∀ r ∈ res i, r.Index < (lab i).length) :
    collectTexts lib table envs labels modelName =
      .ok ((List.range envs.length).flatMap
        (fun i => acceptedLines lib table (nm i) (lab i) (res i))) := by
  unfold collectTexts
  have key : ∀ n, n ≤ envs.length →
      forLoop n
        (fun texts i =>
          match envs[i]? with
          | none => .error (.panic "index out of range")
          | some env =>
            match calc_ lib env with
            | .error e => .error e
            | .ok results => ruleLoop lib table labels modelName i results 0 texts)
        [] = .ok ((List.range n).flatMap
          (fun i => acceptedLines lib table (nm i) (lab i) (res i))) := by
    intro n
    induction n with
    | zero => intro _; rfl
    | succ n ih =>
      intro hle
      obtain ⟨env, he, hc⟩ := hcalc n (by omega)
      simp only [forLoop, ih (by omega), he, hc]
      rw [ruleLoop_eq lib table labels modelName n (lab n) (nm n) (hl n (by omega))
        (hn n (by omega)) (res n) _ (hidx n (by omega)), List.range_succ, List.flatMap_append]
      simp
  exact key envs.length (Nat.le_refl _)

theorem keeps_iff (lib : GoLib) (table : GoString → Option Rule) (ls : List GoString)
    (r : result) :
    keeps lib table ls r = true ↔
      lib.float32 r.Score ≥ (rulesFind table (ls.getD r.Index [])).1.Threshold := by
  unfold keeps
  rw [Bool.not_eq_true', decide_eq_false_iff_not, not_lt, ge_iff_le]

/-! ## The rule filter on concrete runs -/

theorem runs_env8 : Runs exampleLib env8 [255, 255, 255, 255, 255, 255, 255, 255] := by
  decide

theorem calc_env8 : calc_ exampleLib env8 = .ok results8 := by
  rw [calc_of_runs _ _ _ runs_env8, calcResults, collectResults_eq]
  simp [exampleLib, insertionSortSlice, List.range, List.range.loop, List.filter, scoreLess,
    List.insertionSort, List.orderedInsert, results8]

theorem collectTexts_env8 (table : GoString → Option Rule) :
    collectTexts exampleLib table [env8] [labels8] [['m']] =
      .ok (acceptedLines exampleLib table ['m'] labels8 results8) := by
  rw [collectTexts_eq exampleLib table [env8] [labels8] [['m']] (fun _ => results8)
    (fun _ => labels8) (fun _ => ['m'])]
  · simp [List.range, List.range.loop]
  · intro i hi
    have : i = 0 := by simpa using hi
    subst this
    exact ⟨env8, rfl, calc_env8⟩
  · intro i hi
    have : i = 0 := by simpa using hi
    subst this
    rfl
  · intro i hi
    have : i = 0 := by simpa using hi
    subst this
    rfl
  · intro i _ r hr
    simp only [results8, List.mem_cons, List.mem_singleton, List.not_mem_nil, or_false] at hr
    rcases hr with h | h | h | h | h | h | h | h <;> subst h <;> decide

/-- C2 as stated fails: `calc` returns eight predictions of score 1; no label has
    a rule, so every threshold is 0 and every score reaches it; the eighth
    prediction (class 7, label `h`) still gets no line, since the loop stops
    after the seventh. -/
theorem rule_filter_counterexample :
    calc_ exampleLib env8 = .ok results8 ∧
    rulesFind (fun _ => none) ['h'] = ({ Label := [], Threshold := 0 }, false) ∧
    exampleLib.float32 1 ≥ (0 : ℚ) ∧
    collectTexts exampleLib (fun _ => none) [env8] [labels8] [['m']] =
      .ok ["m - a(): ".toList, "m - b(): ".toList, "m - c(): ".toList, "m - d(): ".toList,
        "m - e(): ".toList, "m - f(): ".toList, "m - g(): ".toList] ∧
    lineOf exampleLib (fun _ => none) ['m'] labels8 ⟨1, 7⟩ = "m - h(): ".toList := by
  refine ⟨calc_env8, rfl, by simp [exampleLib], ?_, ?_⟩
  · rw [collectTexts_env8]
    simp [acceptedLines, keeps, lineOf, results8, labels8, rulesFind, exampleLib]
  · simp [lineOf, labels8, rulesFind, exampleLib]

/-- C4 as stated fails: with a rule that discards the entry at position 6
    (label `g`), the entry at position 7 (label `h`) is looked up and produces
    an output line. -/
theorem rule_cap_counterexample :
    calc_ exampleLib env8 = .ok results8 ∧
    collectTexts exampleLib tableG [env8] [labels8] [['m']] =
      .ok ["m - a(): ".toList, "m - b(): ".toList, "m - c(): ".toList, "m - d(): ".toList,
        "m - e(): ".toList, "m - f(): ".toList, "m - h(): ".toList] := by
  refine ⟨calc_env8, ?_⟩
  rw [collectTexts_env8]
  simp [acceptedLines, keeps, lineOf, results8, labels8, rulesFind, exampleLib, tableG]

theorem results8_in_range : ∀ r ∈ results8, r.Index < labels8.length := by
  intro r hr
  simp only [results8, List.mem_cons, List.mem_singleton, List.not_mem_nil, or_false] at hr
  rcases hr with h | h | h | h | h | h | h | h <;> subst h <;> decide

/-- C2, amended. For a visited file, let `res i` be the ranked list `calc`
    returns for model `i`, with every class index inside the label list `lab i`.
    The accepted lines of the file are, model after model, the lines of
    `acceptedLines`: one for every prediction among the positions 0..5 that is
    kept, and one for the first kept prediction among the positions from 6 on.
    A prediction is kept iff its score, converted to `float32`, is at least the
    threshold `T` of the rule found for its label, and, when no rule is found,
    iff that converted score is at least 0. -/
theorem rule_filter_lines (lib : GoLib) (table : GoString → Option Rule) (envs : List CalcEnv)
    (labels : List (List GoString)) (modelName : List GoString)
    (res : Nat → List result) (lab : Nat → List GoString) (nm : Nat → GoString)
    (hcalc : ∀ i, i < envs.length → ∃ env, envs[i]? = some env ∧ calc_ lib env = .ok (res i))
    (hl : ∀ i, i < envs.length → labels[i]? = some (lab i))
    (hn : ∀ i, i < envs.length → modelName[i]? = some (nm i))
    (hidx : ∀ i, i < envs.length → ∀ r ∈ res i, r.Index < (lab i).length) :
    collectTexts lib table envs labels modelName =
      .ok ((List.range envs.length).flatMap
        (fun i => acceptedLines lib table (nm i) (lab i) (res i))) ∧
    (∀ ls r rule, table (ls.getD r.Index []) = some rule →
      (keeps lib table ls r = true ↔ lib.float32 r.Score ≥ rule.Threshold)) ∧
    (∀ ls r, table (ls.getD r.Index []) = none →
      (keeps lib table ls r = true ↔ lib.float32 r.Score ≥ 0)) := by
  refine ⟨collectTexts_eq lib table envs labels modelName res lab nm hcalc hl hn hidx, ?_, ?_⟩
  · intro ls r rule h
    rw [keeps_iff, rulesFind, h]
  · intro ls r h
    rw [keeps_iff, rulesFind, h]

/-- Witness for C2: one model, the run `env8`, the labels `a` to `h` and the
    rule table `tableG`. -/
theorem rule_filter_lines_witness :
    (∀ i, i < [env8].length → ∃ env, [env8][i]? = some env ∧ calc_ exampleLib env = .ok results8) ∧
    (∀ i, i < [env8].length → [labels8][i]? = some labels8) ∧
    (∀ i, i < [env8].length → [['m']][i]? = some ['m']) ∧
    (∀ i, i < [env8].length → ∀ r ∈ results8, r.Index < labels8.length) ∧
    collectTexts exampleLib tableG [env8] [labels8] [['m']] =
      .ok ((List.range [env8].length).flatMap
        (fun _ => acceptedLines exampleLib tableG ['m'] labels8 results8)) := by
  have h1 : ∀ i, i < [env8].length →
      ∃ env, [env8][i]? = some env ∧ calc_ exampleLib env = .ok results8 := by
    intro i hi
    have : i = 0 := by simpa using hi
    subst this
    exact ⟨env8, rfl, calc_env8⟩
  have h2 : ∀ i, i < [env8].length → [labels8][i]? = some labels8 := by
    intro i hi
    have : i = 0 := by simpa using hi
    subst this
    rfl
  have h3 : ∀ i, i < [env8].length → [['m']][i]? = some ['m'] := by
    intro i hi
    have : i = 0 := by simpa using hi
    subst this
    rfl
  have h4 : ∀ i, i < [env8].length → ∀ r ∈ results8, r.Index < labels8.length :=
    fun _ _ => results8_in_range
  exact ⟨h1, h2, h3, h4,
    (rule_filter_lines exampleLib tableG [env8] [labels8] [['m']] (fun _ => results8)
      (fun _ => labels8) (fun _ => ['m']) h1 h2 h3 h4).1⟩

/-- C4, amended. For one model (labels `ls`, name `name`) and every ranked list
    `rs` whose class indices are inside the label list, the rule filter appends
    the lines of `acceptedLines` and these are at most 7: the entries at the
    positions 0..5 are all looked up, and from position 6 on the loop goes on
    only until the first entry that is kept. Whatever follows that entry
    (`post`, any entries at all) is not looked up and produces no line; an
    entry at a position from 7 on is looked up when the entries from position 6
    up to it were all discarded (`mid`). -/
theorem rule_filter_cap (lib : GoLib) (table : GoString → Option Rule)
    (labels : List (List GoString)) (modelName : List GoString) (i : Nat)
    (ls : List GoString) (name : GoString) (hl : labels[i]? = some ls)
    (hn : modelName[i]? = some name) :
    (∀ rs texts, (∀ r ∈ rs, r.Index < ls.length) →
      ruleLoop lib table labels modelName i rs 0 texts =
        .ok (texts ++ acceptedLines lib table name ls rs) ∧
      (acceptedLines lib table name ls rs).length ≤ 7) ∧
    (∀ front mid post r texts, front.length = 6 →
      (∀ q ∈ front ++ mid ++ [r], q.Index < ls.length) →
      (∀ q ∈ mid, keeps lib table ls q = false) → keeps lib table ls r = true →
      ruleLoop lib table labels modelName i (front ++ mid ++ r :: post) 0 texts =
        .ok (texts ++ ((front.filter (keeps lib table ls)).map (lineOf lib table name ls) ++
          [lineOf lib table name ls r]))) := by
  refine ⟨?_, ?_⟩
  · intro rs texts hidx
    exact ⟨ruleLoop_eq lib table labels modelName i ls name hl hn rs texts hidx,
      acceptedLines_length lib table name ls rs⟩
  · intro front mid post r texts hfront hidx hrej hk
    exact ruleLoop_stops lib table labels modelName i ls name hl hn front mid post r texts
      hfront hidx hrej hk

/-- Witness for C4: the eight predictions `results8`, the labels `a` to `h` and
    the rule table `tableG`. -/
theorem rule_filter_cap_witness :
    ([labels8] : List (List GoString))[0]? = some labels8 ∧
    ([['m']] : List GoString)[0]? = some ['m'] ∧
    ruleLoop exampleLib tableG [labels8] [['m']] 0 results8 0 [] =
      .ok ([] ++ acceptedLines exampleLib tableG ['m'] labels8 results8) ∧
    (acceptedLines exampleLib tableG ['m'] labels8 results8).length ≤ 7 :=
  ⟨rfl, rfl,
    (rule_filter_cap exampleLib tableG [labels8] [['m']] 0 labels8 ['m'] rfl rfl).1
      results8 [] results8_in_range⟩

/-! ## Lemmas on `strings.Split`, `strings.Join` and `filepath.Join` -/

theorem stringsSplit_ne_nil (sep : Char) (s : GoString) : stringsSplit sep s ≠ [] := by
  cases s with
  | nil => simp [stringsSplit]
  | cons c cs =>
    unfold stringsSplit
    split
    · simp
    · split <;> simp

theorem stringsSplit_no_sep (sep : Char) (s : GoString) (h : sep ∉ s) :
    stringsSplit sep s = [s] := by
  induction s with
  | nil => rfl
  | cons c cs ih =>
    have hc : ¬ c = sep := fun e => h (by simp [e])
    have hcs : sep ∉ cs := fun e => h (List.mem_cons_of_mem _ e)
    rw [stringsSplit, if_neg hc, ih hcs]

theorem stringsSplit_append (sep : Char) (a b : GoString) :
    stringsSplit sep (a ++ sep :: b) = stringsSplit sep a ++ stringsSplit sep b := by
  induction a with
  | nil => simp [stringsSplit]
  | cons c cs ih =>
    obtain ⟨p, ps, hp⟩ := List.exists_cons_of_ne_nil (stringsSplit_ne_nil sep cs)
    by_cases hc : c = sep
    · rw [List.cons_append, stringsSplit, if_pos hc, ih, stringsSplit, if_pos hc]
      rfl
    · rw [List.cons_append, stringsSplit, if_neg hc, ih, stringsSplit, if_neg hc, hp]
      rfl

theorem stringsSplit_append_sep (sep : Char) (cur rest : GoString) (h : sep ∉ cur) :
    stringsSplit sep (cur ++ sep :: rest) = cur :: stringsSplit sep rest := by
  rw [stringsSplit_append, stringsSplit_no_sep sep cur h]
  rfl

theorem mem_stringsSplit_no_sep (sep : Char) (s : GoString) :
    ∀ p ∈ stringsSplit sep s, sep ∉ p := by
  induction s with
  | nil =>
    intro p hp
    simp only [stringsSplit, List.mem_singleton] at hp
    subst hp
    simp
  | cons c cs ih =>
    intro p hp
    obtain ⟨q, qs, hq⟩ := List.exists_cons_of_ne_nil (stringsSplit_ne_nil sep cs)
    by_cases hc : c = sep
    · rw [stringsSplit, if_pos hc] at hp
      rcases List.mem_cons.mp hp with h | h
      · subst h; simp
      · exact ih p h
    · rw [stringsSplit, if_neg hc, hq] at hp
      rcases List.mem_cons.mp hp with h | h
      · subst h
        have hqq := ih q (by rw [hq]; exact List.mem_cons_self _ _)
        intro hm
        rcases List.mem_cons.mp hm with h1 | h1
        · exact hc h1.symm
        · exact hqq h1
      · exact ih p (by rw [hq]; exact List.mem_cons_of_mem _ h)

theorem stringsJoin_cons_cons (sep : Char) (e e2 : GoString) (rest : List GoString) :
    stringsJoin sep (e :: e2 :: rest) = e ++ sep :: stringsJoin sep (e2 :: rest) := rfl

theorem stringsJoin_append_singleton (sep : Char) (es : List GoString) (y : GoString)
    (h : es ≠ []) :
    stringsJoin sep (es ++ [y]) = stringsJoin sep es ++ sep :: y := by
  induction es with
  | nil => exact absurd rfl h
  | cons e rest ih =>
    cases rest with
    | nil => rfl
    | cons e2 rest2 =>
      rw [List.cons_append, List.cons_append, stringsJoin_cons_cons, stringsJoin_cons_cons,
        ← List.cons_append, ih (by simp)]
      simp

theorem stringsSplit_join (sep : Char) (es : List GoString) (h : es ≠ [])
    (hno : ∀ e ∈ es, sep ∉ e) : stringsSplit sep (stringsJoin sep es) = es := by
  induction es with
  | nil => exact absurd rfl h
  | cons e rest ih =>
    cases rest with
    | nil => exact stringsSplit_no_sep sep e (hno e (by simp))
    | cons e2 rest2 =>
      rw [stringsJoin_cons_cons, stringsSplit_append_sep sep e _ (hno e (by simp)),
        ih (by simp) (fun x hx => hno x (List.mem_cons_of_mem _ hx))]

theorem cleanStep_skip (rooted : Bool) (out : List GoString) (e : GoString)
    (h : e = [] ∨ e = ['.']) : cleanStep rooted out e = out := by
  unfold cleanStep
  rw [if_pos h]

theorem cleanStep_dotdot_nil_rooted : cleanStep true [] ['.', '.'] = [] := by decide

theorem cleanStep_dotdot_nil : cleanStep false [] ['.', '.'] = [['.', '.']] := by decide

theorem cleanStep_dotdot_dotdot (rooted : Bool) (below : List GoString) :
    cleanStep rooted (['.', '.'] :: below) ['.', '.'] = ['.', '.'] :: ['.', '.'] :: below := by
  unfold cleanStep
  rw [if_neg (by decide), if_pos rfl]
  simp

theorem cleanStep_dotdot_pop (rooted : Bool) (top : GoString) (below : List GoString)
    (h : top ≠ ['.', '.']) : cleanStep rooted (top :: below) ['.', '.'] = below := by
  unfold cleanStep
  rw [if_neg (by decide), if_pos rfl]
  simp [h]

theorem cleanStep_push (rooted : Bool) (out : List GoString) (e : GoString)
    (h1 : e ≠ []) (h2 : e ≠ ['.']) (h3 : e ≠ ['.', '.']) : cleanStep rooted out e = e :: out := by
  unfold cleanStep
  rw [if_neg (fun h => h.elim h1 h2), if_neg h3]

theorem cleanKept_nil (rooted : Bool) : CleanKept rooted [] :=
  ⟨fun _ h => absurd h (List.not_mem_nil _), fun _ _ h => absurd h (List.not_mem_nil _),
    List.Pairwise.nil⟩

theorem cleanKept_tail (rooted : Bool) (top : GoString) (below : List GoString)
    (hg : CleanKept rooted (top :: below)) : CleanKept rooted below :=
  ⟨fun x hx => hg.1 x (List.mem_cons_of_mem _ hx),
    fun hr x hx => hg.2.1 hr x (List.mem_cons_of_mem _ hx), (List.pairwise_cons.mp hg.2.2).2⟩

theorem cleanKept_not_rooted (rooted : Bool) (below : List GoString)
    (hg : CleanKept rooted (['.', '.'] :: below)) : rooted = false := by
  cases rooted with
  | false => rfl
  | true => exact absurd rfl (hg.2.1 rfl _ (List.mem_cons_self _ _))

theorem cleanStep_kept (rooted : Bool) (out : List GoString) (e : GoString)
    (hg : CleanKept rooted out) (he : '/' ∉ e) : CleanKept rooted (cleanStep rooted out e) := by
  by_cases hskip : e = [] ∨ e = ['.']
  · rw [cleanStep_skip rooted out e hskip]
    exact hg
  · have hne : e ≠ [] := fun h => hskip (Or.inl h)
    have hnd : e ≠ ['.'] := fun h => hskip (Or.inr h)
    by_cases hdd : e = ['.', '.']
    · subst hdd
      cases out with
      | nil =>
        cases rooted with
        | true =>
          rw [cleanStep_dotdot_nil_rooted]
          exact cleanKept_nil true
        | false =>
          rw [cleanStep_dotdot_nil]
          refine ⟨?_, fun h => absurd h (by decide), List.pairwise_singleton _ _⟩
          intro x hx
          rw [List.mem_singleton] at hx
          subst hx
          exact ⟨hne, hnd, he⟩
      | cons top below =>
        by_cases htop : top = ['.', '.']
        · subst htop
          have hr := cleanKept_not_rooted rooted below hg
          subst hr
          rw [cleanStep_dotdot_dotdot]
          refine ⟨?_, fun h => absurd h (by decide), ?_⟩
          · intro x hx
            rcases List.mem_cons.mp hx with hx | hx
            · subst hx; exact ⟨hne, hnd, he⟩
            · exact hg.1 x hx
          · rw [List.pairwise_cons]
            refine ⟨?_, hg.2.2⟩
            intro b hb _
            rcases List.mem_cons.mp hb with hb | hb
            · exact hb
            · exact (List.pairwise_cons.mp hg.2.2).1 b hb rfl
        · rw [cleanStep_dotdot_pop rooted top below htop]
          exact cleanKept_tail rooted top below hg
    · rw [cleanStep_push rooted out e hne hnd hdd]
      refine ⟨?_, ?_, ?_⟩
      · intro x hx
        rcases List.mem_cons.mp hx with hx | hx
        · subst hx; exact ⟨hne, hnd, he⟩
        · exact hg.1 x hx
      · intro hr x hx
        rcases List.mem_cons.mp hx with hx | hx
        · subst hx; exact hdd
        · exact hg.2.1 hr x hx
      · rw [List.pairwise_cons]
        exact ⟨fun b _ h => absurd h hdd, hg.2.2⟩

theorem foldl_cleanStep_kept (rooted : Bool) (es : List GoString) :
    ∀ out, CleanKept rooted out → (∀ e ∈ es, '/' ∉ e) →
      CleanKept rooted (es.foldl (cleanStep rooted) out) := by
  induction es with
  | nil => intro out hg _; exact hg
  | cons e rest ih =>
    intro out hg hes
    rw [List.foldl_cons]
    exact ih _ (cleanStep_kept rooted out e hg (hes e (List.mem_cons_self _ _)))
      (fun x hx => hes x (List.mem_cons_of_mem _ hx))

/-- Cleaning the elements of a cleaned path again gives them back. -/
theorem foldl_cleanStep_reverse (rooted : Bool) (out : List GoString)
    (hg : CleanKept rooted out) : out.reverse.foldl (cleanStep rooted) [] = out := by
  induction out with
  | nil => rfl
  | cons e below ih =>
    obtain ⟨hne, hnd, _⟩ := hg.1 e (List.mem_cons_self _ _)
    rw [List.reverse_cons, List.foldl_append, ih (cleanKept_tail rooted e below hg),
      List.foldl_cons, List.foldl_nil]
    by_cases hdd : e = ['.', '.']
    · subst hdd
      have hr := cleanKept_not_rooted rooted below hg
      subst hr
      cases below with
      | nil => exact cleanStep_dotdot_nil
      | cons top rest =>
        have htop : top = ['.', '.'] :=
          (List.pairwise_cons.mp hg.2.2).1 top (List.mem_cons_self _ _) rfl
        subst htop
        exact cleanStep_dotdot_dotdot false rest
    · exact cleanStep_push rooted below e hne hnd hdd

theorem filepathClean_eq (p : GoString) :
    filepathClean p =
      if decide (p.head? = some '/') = true then
        '/' :: stringsJoin '/' (cleanElems (decide (p.head? = some '/')) (stringsSplit '/' p))
      else if cleanElems (decide (p.head? = some '/')) (stringsSplit '/' p) = [] then ['.']
      else stringsJoin '/' (cleanElems (decide (p.head? = some '/')) (stringsSplit '/' p)) :=
  rfl

theorem stringsJoin_head (sep : Char) (e : GoString) (rest : List GoString) (he : e ≠ []) :
    stringsJoin sep (e :: rest) ≠ [] ∧ (stringsJoin sep (e :: rest)).head? = e.head? := by
  obtain ⟨c, cs, hc⟩ := List.exists_cons_of_ne_nil he
  subst hc
  cases rest with
  | nil => exact ⟨by simp [stringsJoin], rfl⟩
  | cons e2 rest2 =>
    rw [stringsJoin_cons_cons]
    exact ⟨by simp, rfl⟩

theorem head_append_of_ne_nil (a b : GoString) (ha : a ≠ []) : (a ++ b).head? = a.head? := by
  obtain ⟨c, cs, hc⟩ := List.exists_cons_of_ne_nil ha
  subst hc
  rfl

/-- What cleaning leaves of a path: the cleaned path is not empty, is rooted
    exactly when the path is, and splits into elements that clean to the same
    kept elements as the path itself. -/
theorem filepathClean_state (a : GoString) :
    filepathClean a ≠ [] ∧
    decide ((filepathClean a).head? = some '/') = decide (a.head? = some '/') ∧
    (stringsSplit '/' (filepathClean a)).foldl (cleanStep (decide (a.head? = some '/'))) []
      = (stringsSplit '/' a).foldl (cleanStep (decide (a.head? = some '/'))) [] := by
  have hkept : CleanKept (decide (a.head? = some '/'))
      ((stringsSplit '/' a).foldl (cleanStep (decide (a.head? = some '/'))) []) :=
    foldl_cleanStep_kept _ _ _ (cleanKept_nil _) (mem_stringsSplit_no_sep '/' a)
  rw [filepathClean_eq]
  unfold cleanElems
  generalize (stringsSplit '/' a).foldl (cleanStep (decide (a.head? = some '/'))) [] = S at hkept
  generalize decide (a.head? = some '/') = r at hkept
  have hno : ∀ e ∈ S.reverse, '/' ∉ e := fun e he => (hkept.1 e (List.mem_reverse.mp he)).2.2
  cases r with
  | true =>
    rw [if_pos rfl]
    refine ⟨by simp, by simp, ?_⟩
    have hsplit : stringsSplit '/' ('/' :: stringsJoin '/' S.reverse)
        = [] :: stringsSplit '/' (stringsJoin '/' S.reverse) := by
      rw [stringsSplit, if_pos rfl]
    rw [hsplit, List.foldl_cons, cleanStep_skip true [] [] (Or.inl rfl)]
    by_cases hS : S.reverse = []
    · have hS2 : S = [] := List.reverse_eq_nil_iff.mp hS
      subst hS2
      decide
    · rw [stringsSplit_join '/' S.reverse hS hno]
      exact foldl_cleanStep_reverse true S hkept
  | false =>
    rw [if_neg (by decide)]
    by_cases hS : S.reverse = []
    · have hS2 : S = [] := List.reverse_eq_nil_iff.mp hS
      subst hS2
      refine ⟨by decide, by decide, by decide⟩
    · rw [if_neg hS]
      obtain ⟨e, rest, hes⟩ := List.exists_cons_of_ne_nil hS
      have hmem : e ∈ S := List.mem_reverse.mp (by rw [hes]; exact List.mem_cons_self _ _)
      obtain ⟨hne, -, hsl⟩ := hkept.1 e hmem
      have hj := stringsJoin_head '/' e rest hne
      rw [hes] at hno ⊢
      refine ⟨hj.1, ?_, ?_⟩
      · rw [hj.2]
        obtain ⟨c, cs, hc⟩ := List.exists_cons_of_ne_nil hne
        subst hc
        have : c ≠ '/' := fun h => hsl (by rw [h]; exact List.mem_cons_self _ _)
        simp [this]
      · rw [stringsSplit_join '/' (e :: rest) (by simp) hno, ← hes]
        exact foldl_cleanStep_reverse false S hkept

/-- Cleaning a path that starts with a cleaned path is cleaning the whole. -/
theorem filepathClean_clean_append (a b : GoString) (ha : a ≠ []) :
    filepathClean (filepathClean a ++ '/' :: b) = filepathClean (a ++ '/' :: b) := by
  obtain ⟨h1, h2, h3⟩ := filepathClean_state a
  have e1 : (filepathClean a ++ '/' :: b).head? = (filepathClean a).head? :=
    head_append_of_ne_nil _ _ h1
  have e2 : (a ++ '/' :: b).head? = a.head? := head_append_of_ne_nil _ _ ha
  rw [filepathClean_eq (filepathClean a ++ '/' :: b), filepathClean_eq (a ++ '/' :: b), e1, e2, h2]
  unfold cleanElems
  rw [stringsSplit_append, stringsSplit_append, List.foldl_append, List.foldl_append, h3]

theorem filepathJoin_cons_empty (rest : List GoString) :
    filepathJoin ([] :: rest) = filepathJoin rest := by
  rw [filepathJoin, if_pos rfl]

theorem filepathJoin_cons_ne (e : GoString) (rest : List GoString) (he : e ≠ []) :
    filepathJoin (e :: rest) = filepathClean (stringsJoin '/' (e :: rest)) := by
  rw [filepathJoin, if_neg he]

/-- Joining the result of a join with one more element is joining all the
    elements at once. -/
theorem filepathJoin_nested (es : List GoString) (name : GoString) :
    filepathJoin [filepathJoin es, name] = filepathJoin (es ++ [name]) := by
  induction es with
  | nil =>
    rw [List.nil_append]
    exact filepathJoin_cons_empty [name]
  | cons e rest ih =>
    by_cases he : e = []
    · subst he
      rw [List.cons_append, filepathJoin_cons_empty, filepathJoin_cons_empty, ih]
    · have hc := (filepathClean_state (stringsJoin '/' (e :: rest))).1
      have hj := (stringsJoin_head '/' e rest he).1
      rw [List.cons_append, filepathJoin_cons_ne e rest he, filepathJoin_cons_ne _ _ hc,
        filepathJoin_cons_ne e _ he, ← List.cons_append,
        stringsJoin_append_singleton '/' (e :: rest) name (by simp)]
      exact filepathClean_clean_append _ name hj

/-! ## The output path -/

theorem drop_take_six (l : List GoString) (h : 7 ≤ l.length) :
    (l.drop (l.length - 7)).take 6 =
      [l.getD (l.length - 7) [], l.getD (l.length - 6) [], l.getD (l.length - 5) [],
        l.getD (l.length - 4) [], l.getD (l.length - 3) [], l.getD (l.length - 2) []] := by
  apply List.ext_getElem
  · simp only [List.length_take, List.length_drop, List.length_cons, List.length_nil]
    omega
  · intro k h1 h2
    simp only [List.length_cons, List.length_nil] at h2
    rw [List.getElem_take, List.getElem_drop]
    have hk : k = 0 ∨ k = 1 ∨ k = 2 ∨ k = 3 ∨ k = 4 ∨ k = 5 := by omega
    rcases hk with e | e | e | e | e | e <;> subst e <;>
      simp only [List.getElem_cons_zero, List.getElem_cons_succ] <;>
      rw [List.getD_eq_getElem _ _ (by omega)] <;> congr 1 <;> omega

theorem drop_take_eq_slice (l : List GoString) (h : 7 ≤ l.length) :
    (l.drop (l.length - 7)).take 6 = (l.take (l.length - 1)).drop (l.length - 7) := by
  rw [List.drop_take]
  congr 1
  omega

theorem outputPath_long (outDir path name : GoString)
    (h : (stringsSplit '/' path).length > 7) :
    outputPath outDir path name =
      (some (filepathJoin (outDir ::
          ((stringsSplit '/' path).drop ((stringsSplit '/' path).length - 7)).take 6)),
        filepathJoin [filepathJoin (outDir ::
          ((stringsSplit '/' path).drop ((stringsSplit '/' path).length - 7)).take 6), name]) := by
  rw [drop_take_six _ (by omega)]
  simp only [outputPath, if_pos h]

theorem outputPath_short (outDir path name : GoString)
    (h : (stringsSplit '/' path).length ≤ 7) :
    outputPath outDir path name = (none, name) := by
  simp only [outputPath, if_neg (Nat.not_lt.mpr h)]

theorem collectTexts_env8_none :
    collectTexts exampleLib (fun _ => none) [env8] [labels8] [['m']] =
      .ok ["m - a(): ".toList, "m - b(): ".toList, "m - c(): ".toList, "m - d(): ".toList,
        "m - e(): ".toList, "m - f(): ".toList, "m - g(): ".toList] := by
  rw [collectTexts_env8]
  simp [acceptedLines, keeps, lineOf, results8, labels8, rulesFind, exampleLib]

/-- C7. For every visited file that is not a directory, whose path splits on
    the separator into `n > 7` parts and for which at least one line was
    accepted (and whose directory could be created), the callback calls
    `outputImage` with the output path `Join(Join(outDir, s...), name)`, which
    is the same path as `Join(outDir, s..., name)`, where `s` are the six parts
    `parts[n-7], ..., parts[n-2]` in that order, that is the slice
    `parts[n-7 : n-1]`, and `name` is the base name of the file. -/
theorem walk_mirrors_six_segments (lib : GoLib) (table : GoString → Option Rule)
    (envs : List CalcEnv) (labels : List (List GoString)) (modelName : List GoString)
    (outDir : GoString) (mkdirErr : GoString → Option String) (path : GoString)
    (info : FileInfo) (texts : List GoString)
    (hfile : info.IsDir = false)
    (htexts : collectTexts lib table envs labels modelName = .ok texts)
    (hne : texts ≠ [])
    (hparts : (stringsSplit '/' path).length > 7)
    (hmk : ∀ d, mkdirErr d = none) :
    (∃ call, walkFn lib table envs labels modelName outDir mkdirErr path info none
        = .ok (some call) ∧
      call.src = path ∧ call.labels = texts ∧
      call.out = filepathJoin [filepathJoin (outDir ::
        ((stringsSplit '/' path).drop ((stringsSplit '/' path).length - 7)).take 6),
        info.Name] ∧
      call.out = filepathJoin (outDir ::
        ((stringsSplit '/' path).drop ((stringsSplit '/' path).length - 7)).take 6 ++
        [info.Name])) ∧
    ((stringsSplit '/' path).drop ((stringsSplit '/' path).length - 7)).take 6 =
      [(stringsSplit '/' path).getD ((stringsSplit '/' path).length - 7) [],
       (stringsSplit '/' path).getD ((stringsSplit '/' path).length - 6) [],
       (stringsSplit '/' path).getD ((stringsSplit '/' path).length - 5) [],
       (stringsSplit '/' path).getD ((stringsSplit '/' path).length - 4) [],
       (stringsSplit '/' path).getD ((stringsSplit '/' path).length - 3) [],
       (stringsSplit '/' path).getD ((stringsSplit '/' path).length - 2) []] ∧
    ((stringsSplit '/' path).drop ((stringsSplit '/' path).length - 7)).take 6 =
      ((stringsSplit '/' path).take ((stringsSplit '/' path).length - 1)).drop
        ((stringsSplit '/' path).length - 7) := by
  refine ⟨?_, drop_take_six _ (by omega), drop_take_eq_slice _ (by omega)⟩
  have hlen : ¬ texts.length = 0 := by
    intro h
    exact hne (List.length_eq_zero.mp h)
  refine ⟨OutputCall.mk
    (some (filepathJoin (outDir ::
      ((stringsSplit '/' path).drop ((stringsSplit '/' path).length - 7)).take 6)))
    path
    (filepathJoin [filepathJoin (outDir ::
      ((stringsSplit '/' path).drop ((stringsSplit '/' path).length - 7)).take 6), info.Name])
    texts, ?_, rfl, rfl, rfl, filepathJoin_nested _ _⟩
  simp only [walkFn, hfile, htexts, if_neg hlen, outputPath_long outDir path info.Name hparts,
    hmk, Bool.false_eq_true, if_false]

theorem outputPath_example :
    outputPath "label_images".toList "/home/alice/Photos/preview/2020/01/01/b.jpg".toList
      "b.jpg".toList =
    (some "label_images/alice/Photos/preview/2020/01/01".toList,
      "label_images/alice/Photos/preview/2020/01/01/b.jpg".toList) := by
  decide

/-- Witness for C7: the file `/home/alice/Photos/preview/2020/01/01/b.jpg` and
    the output root `label_images`. -/
theorem walk_mirrors_six_segments_witness :
    (stringsSplit '/' "/home/alice/Photos/preview/2020/01/01/b.jpg".toList).length > 7 ∧
    ∃ call, walkFn exampleLib (fun _ => none) [env8] [labels8] [['m']] "label_images".toList
        (fun _ => none) "/home/alice/Photos/preview/2020/01/01/b.jpg".toList
        ⟨false, "b.jpg".toList⟩ none = .ok (some call) ∧
      call.out = "label_images/alice/Photos/preview/2020/01/01/b.jpg".toList := by
  have hp : (stringsSplit '/' "/home/alice/Photos/preview/2020/01/01/b.jpg".toList).length > 7 := by
    decide
  refine ⟨hp, ?_⟩
  obtain ⟨call, h1, -, -, h4, -⟩ :=
    (walk_mirrors_six_segments exampleLib (fun _ => none) [env8] [labels8] [['m']]
      "label_images".toList (fun _ => none)
      "/home/alice/Photos/preview/2020/01/01/b.jpg".toList ⟨false, "b.jpg".toList⟩ _ rfl
      collectTexts_env8_none (by simp) hp (fun _ => rfl)).1
  refine ⟨call, h1, ?_⟩
  rw [h4]
  decide

/-- C3, the behaviour of the code: for a path of at most 7 parts the callback
    leaves `outpath` at the base name of the file and never joins it with
    `outDir`. For the file `a/b.jpg` and the output root `label_images` it calls
    `outputImage` with the output path `b.jpg`, where the path under the output
    root would be `label_images/b.jpg`. -/
theorem walk_short_path_ignores_outDir :
    (∀ outDir path name : GoString, (stringsSplit '/' path).length ≤ 7 →
      outputPath outDir path name = (none, name)) ∧
    (stringsSplit '/' "a/b.jpg".toList).length = 2 ∧
    walkFn exampleLib (fun _ => none) [env8] [labels8] [['m']] "label_images".toList
        (fun _ => none) "a/b.jpg".toList ⟨false, "b.jpg".toList⟩ none =
      .ok (some
        { mkdir := none, src := "a/b.jpg".toList, out := "b.jpg".toList,
          labels := ["m - a(): ".toList, "m - b(): ".toList, "m - c(): ".toList,
            "m - d(): ".toList, "m - e(): ".toList, "m - f(): ".toList, "m - g(): ".toList] }) ∧
    filepathJoin ["label_images".toList, "b.jpg".toList] = "label_images/b.jpg".toList ∧
    "b.jpg".toList ≠ "label_images/b.jpg".toList := by
  refine ⟨outputPath_short, by decide, ?_, by decide, by decide⟩
  have hs : (stringsSplit '/' "a/b.jpg".toList).length ≤ 7 := by decide
  simp only [walkFn, collectTexts_env8_none, outputPath_short _ _ _ hs]
  simp

/-! ## The banner -/

theorem rect_of_nonneg (w h : Int) (hw : 0 ≤ w) (hh : 0 ≤ h) :
    Rect 0 0 w h = ⟨⟨0, 0⟩, ⟨w, h⟩⟩ := by
  have h1 : ¬ (0 : Int) > w := by omega
  have h2 : ¬ (0 : Int) > h := by omega
  simp only [Rect, if_neg h1, if_neg h2]

theorem drawSrc_bounds (dst : Image) (r : Rectangle) (src : Image) (sp : Point) :
    (drawSrc dst r src sp).Bounds = dst.Bounds := by
  simp only [drawSrc]
  split <;> rfl

theorem canvas_bounds (bgimg : Image) (width height : Int) :
    (canvasWithBackground bgimg width height).Bounds = Rect 0 0 width height := by
  unfold canvasWithBackground
  rw [drawSrc_bounds]
  rfl

theorem bannerRegion_pos (h b : Int) (hh : 0 < h) (hb : 0 < b) :
    bannerRegion 400 h b = ⟨⟨0, 0⟩, ⟨400, min h b⟩⟩ := by
  unfold bannerRegion clip
  rw [rect_of_nonneg 400 h (by norm_num) (by omega), rect_of_nonneg 400 b (by norm_num) (by omega)]
  rcases le_total h b with hle | hle
  · have hm : min h b = h := min_eq_left hle
    have e1 : ¬ (0 : Int) ≥ h := by omega
    have e2 : ¬ h > b := by omega
    simp [Rectangle.Intersect, Rectangle.Empty, Rectangle.Add, Point.Sub, ZP, ZR, hm, e1, e2]
  · have hm : min h b = b := min_eq_right hle
    have e1 : ¬ (0 : Int) ≥ h := by omega
    have e3 : ¬ (0 : Int) ≥ b := by omega
    by_cases e2 : h > b
    · simp [Rectangle.Intersect, Rectangle.Empty, Rectangle.Add, Point.Sub, ZP, ZR, hm, e1, e2, e3]
    · have : h = b := by omega
      subst this
      simp [Rectangle.Intersect, Rectangle.Empty, Rectangle.Add, Point.Sub, ZP, ZR, e1]

theorem bannerRegion_zero (b : Int) (hb : 0 < b) : bannerRegion 400 0 b = ZR := by
  unfold bannerRegion clip
  rw [rect_of_nonneg 400 0 (by norm_num) (by omega), rect_of_nonneg 400 b (by norm_num) (by omega)]
  simp [Rectangle.Intersect, Rectangle.Empty, Rectangle.Add, Point.Sub, ZP, ZR]

theorem in_bannerRegion (h b x y : Int) (hh : 0 ≤ h) (hb : 0 < b) :
    Point.In ⟨x, y⟩ (bannerRegion 400 h b) = true ↔ 0 ≤ x ∧ x < 400 ∧ 0 ≤ y ∧ y < min h b := by
  rcases eq_or_lt_of_le hh with h0 | hpos
  · subst h0
    rw [bannerRegion_zero b hb]
    have hm : min (0 : Int) b = 0 := min_eq_left (by omega)
    simp only [Point.In, ZR, ZP, hm, Bool.and_eq_true, decide_eq_true_eq]
    omega
  · rw [bannerRegion_pos h b hpos hb]
    simp only [Point.In, Bool.and_eq_true, decide_eq_true_eq]
    tauto

theorem not_in_of_empty (p : Point) (r : Rectangle) (h : r.Empty = true) : p.In r = false := by
  simp only [Rectangle.Empty, Bool.or_eq_true, decide_eq_true_eq] at h
  simp only [Point.In, Bool.and_eq_false_iff, decide_eq_false_iff_not]
  omega

/-- A pixel of the image `addBanner` returns: the zero colour of the banner
    inside the banner region, the background everywhere else. -/
theorem addBanner_at (fill : Image → Int → Int → Image) (backImg : Image)
    (width height bannerHeight x y : Int) :
    (addBanner fill backImg width height bannerHeight).At x y =
      if Point.In ⟨x, y⟩ (bannerRegion width height bannerHeight) = true then ⟨0, 0, 0, 0⟩
      else (canvasWithBackground (fill backImg width height) width height).At x y := by
  simp only [addBanner, drawSrc, canvas_bounds]
  have hreg : (clip (Rect 0 0 width height) (Rect 0 0 width height)
      (NewRGBA (Rect 0 0 width bannerHeight)).Bounds ZP).1
      = bannerRegion width height bannerHeight := rfl
  rw [hreg]
  by_cases he : (bannerRegion width height bannerHeight).Empty = true
  · rw [if_pos he, not_in_of_empty _ _ he]
    simp
  · rw [if_neg he]
    simp only [NewRGBA]

theorem addBanner_bounds (fill : Image → Int → Int → Image) (backImg : Image)
    (width height bannerHeight : Int) :
    (addBanner fill backImg width height bannerHeight).Bounds = Rect 0 0 width height := by
  simp only [addBanner, drawSrc_bounds, canvas_bounds]

/-- C5 as stated fails: for a source image 20 pixels high and one accepted
    line the canvas is 400 by 20, and the banner covers the rows 0..19 of it: a
    height of 20, not of `(1 + 1) * 15 = 30`. -/
theorem banner_height_counterexample :
    (outputImageBanner plainFill lowImage ["mobilenet - cat(Cat): 0.93".toList]).Bounds
      = Rect 0 0 400 20 ∧
    bannerRegion 400 lowImage.Bounds.Dy
      (((["mobilenet - cat(Cat): 0.93".toList] : List GoString).length + 1) * 15)
      = Rect 0 0 400 20 ∧
    (Rect 0 0 400 20).Dy = 20 ∧
    (20 : Int) ≠
      (((["mobilenet - cat(Cat): 0.93".toList] : List GoString).length + 1) * 15 : Int) := by
  refine ⟨?_, by decide, by decide, by decide⟩
  rw [outputImageBanner, addBanner_bounds]
  decide

/-- C5, amended. For every decoded source image and every list of `n`
    accepted lines, `outputImage` calls `addBanner` on a canvas of width 400 and
    of the height `h` of the source; the rectangle handed over as the banner has
    height exactly `(n + 1) * 15`; on the canvas the banner covers exactly the
    rows `0 <= y < min(h, (n + 1) * 15)` across the full width `0 <= x < 400`,
    where every pixel is the zero colour of the banner, and every other pixel is
    the one of the background; when `(n + 1) * 15 <= h` the banner covers
    exactly the rows `0 <= y < (n + 1) * 15`. -/
theorem banner_covers_top_rows (fill : Image → Int → Int → Image) (bimg : Image)
    (labels : List GoString) (hwf : bimg.Bounds.Min.Y ≤ bimg.Bounds.Max.Y) :
    (outputImageBanner fill bimg labels).Bounds = Rect 0 0 400 bimg.Bounds.Dy ∧
    (Rect 0 0 400 (((labels.length : Int) + 1) * 15)).Dy = ((labels.length : Int) + 1) * 15 ∧
    (∀ x y, Point.In ⟨x, y⟩
        (bannerRegion 400 bimg.Bounds.Dy (((labels.length : Int) + 1) * 15)) = true ↔
      0 ≤ x ∧ x < 400 ∧ 0 ≤ y ∧ y < min bimg.Bounds.Dy (((labels.length : Int) + 1) * 15)) ∧
    (∀ x y, (outputImageBanner fill bimg labels).At x y =
      if Point.In ⟨x, y⟩
        (bannerRegion 400 bimg.Bounds.Dy (((labels.length : Int) + 1) * 15)) = true
      then ⟨0, 0, 0, 0⟩
      else (canvasWithBackground (fill bimg 400 bimg.Bounds.Dy) 400 bimg.Bounds.Dy).At x y) ∧
    (((labels.length : Int) + 1) * 15 ≤ bimg.Bounds.Dy →
      bannerRegion 400 bimg.Bounds.Dy (((labels.length : Int) + 1) * 15)
        = Rect 0 0 400 (((labels.length : Int) + 1) * 15)) := by
  have hh : 0 ≤ bimg.Bounds.Dy := by
    unfold Rectangle.Dy
    omega
  have hb : 0 < ((labels.length : Int) + 1) * 15 := by omega
  refine ⟨?_, ?_, ?_, ?_, ?_⟩
  · rw [outputImageBanner, addBanner_bounds]
  · rw [rect_of_nonneg 400 _ (by norm_num) (by omega)]
    simp [Rectangle.Dy]
  · intro x y
    exact in_bannerRegion _ _ x y hh hb
  · intro x y
    rw [outputImageBanner, addBanner_at]
  · intro hle
    rw [bannerRegion_pos _ _ (by omega) hb, rect_of_nonneg 400 _ (by norm_num) (by omega),
      min_eq_right hle]

/-- Witness for C5: a source image 20 pixels high and one accepted line. -/
theorem banner_covers_top_rows_witness :
    lowImage.Bounds.Min.Y ≤ lowImage.Bounds.Max.Y ∧
    (outputImageBanner plainFill lowImage ["mobilenet - cat(Cat): 0.93".toList]).Bounds
      = Rect 0 0 400 lowImage.Bounds.Dy :=
  ⟨by decide,
   (banner_covers_top_rows plainFill lowImage ["mobilenet - cat(Cat): 0.93".toList]
     (by decide)).1⟩

/-! ## The label file -/

theorem fileLines_no_newline (s : GoString) (h : '\n' ∉ s) :
    fileLines s = if s = [] then [] else [s] := by
  unfold fileLines
  rw [stringsSplit_no_sep _ _ h]
  by_cases hs : s = []
  · simp [hs]
  · simp [hs]

theorem fileLines_append_newline (cur rest : GoString) (h : '\n' ∉ cur) :
    fileLines (cur ++ '\n' :: rest) = cur :: fileLines rest := by
  unfold fileLines
  rw [stringsSplit_append_sep _ _ _ h]
  obtain ⟨p, ps, hp⟩ := List.exists_cons_of_ne_nil (stringsSplit_ne_nil '\n' rest)
  rw [hp]
  simp only [List.getLast?_cons_cons, List.dropLast_cons₂]
  split <;> rfl

theorem scanLines_eq (maxTok : Nat) (data : GoString) :
    ∀ cur : GoString, '\n' ∉ cur →
      (∀ l ∈ fileLines (cur ++ data), l.length < maxTok) →
      scanLines maxTok data cur = (fileLines (cur ++ data)).map dropCR := by
  induction data with
  | nil =>
    intro cur hcur hshort
    rw [List.append_nil] at hshort ⊢
    rw [fileLines_no_newline cur hcur] at hshort ⊢
    by_cases hc : cur = []
    · simp [scanLines, hc]
    · rw [if_neg hc] at hshort ⊢
      have : ¬ maxTok ≤ cur.length := by
        have := hshort cur (by simp)
        omega
      simp [scanLines, hc, this]
  | cons c cs ih =>
    intro cur hcur hshort
    by_cases hc : c = '\n'
    · subst hc
      rw [fileLines_append_newline cur cs hcur] at hshort ⊢
      have hlen : ¬ maxTok ≤ cur.length := by
        have := hshort cur (by simp)
        omega
      rw [scanLines, if_pos rfl, if_neg hlen, List.map_cons,
        ih [] (by simp) (fun l hl => hshort l (List.mem_cons_of_mem _ (by simpa using hl)))]
      simp
    · have hcur2 : '\n' ∉ cur ++ [c] := by
        intro hm
        rcases List.mem_append.mp hm with h1 | h1
        · exact hcur h1
        · simp at h1
          exact hc h1.symm
      have e : cur ++ [c] ++ cs = cur ++ c :: cs := by simp
      rw [scanLines, if_neg hc, ih (cur ++ [c]) hcur2 (by rw [e]; exact hshort), e]

theorem scanLines_too_long (maxTok : Nat) (data : GoString) :
    ∀ cur : GoString, '\n' ∉ data → maxTok ≤ (cur ++ data).length → cur ++ data ≠ [] →
      scanLines maxTok data cur = [] := by
  induction data with
  | nil =>
    intro cur _ hlen hne
    rw [List.append_nil] at hlen hne
    simp [scanLines, hne, hlen]
  | cons c cs ih =>
    intro cur hno hlen hne
    have hc : ¬ c = '\n' := fun e => hno (by simp [e])
    have hcs : '\n' ∉ cs := fun e => hno (List.mem_cons_of_mem _ e)
    have e : cur ++ [c] ++ cs = cur ++ c :: cs := by simp
    rw [scanLines, if_neg hc]
    exact ih (cur ++ [c]) hcs (by rw [e]; exact hlen) (by rw [e]; exact hne)

theorem loadLabels_long_line (n : Nat) (h : maxScanTokenSize ≤ n) :
    fileLines (List.replicate n 'a') = [List.replicate n 'a'] ∧
    loadLabels (fun _ => .ok (List.replicate n 'a')) "labels.txt".toList = .ok [] := by
  have hpos : 0 < n := lt_of_lt_of_le (by decide) h
  have hno : '\n' ∉ List.replicate n 'a' := by
    intro hm
    have := (List.mem_replicate.mp hm).2
    exact absurd this (by decide)
  have hne : List.replicate n 'a' ≠ [] := by
    intro he
    have := congrArg List.length he
    rw [List.length_replicate, List.length_nil] at this
    omega
  refine ⟨?_, ?_⟩
  · rw [fileLines_no_newline _ hno, if_neg hne]
  · simp only [loadLabels]
    rw [scanLines_too_long maxScanTokenSize _ [] hno
      (by rw [List.nil_append, List.length_replicate]; exact h)
      (by rw [List.nil_append]; exact hne)]

/-- C6 as stated fails: a label file that is one line of 65536 letters `a` has
    one line, and `loadLabels` returns a nil error with no string at all. -/
theorem loadLabels_long_line_counterexample :
    fileLines (List.replicate 65536 'a') = [List.replicate 65536 'a'] ∧
    loadLabels (fun _ => .ok (List.replicate 65536 'a')) "labels.txt".toList = .ok [] :=
  loadLabels_long_line 65536 (by decide)

/-- C6, amended. For every label file that can be opened and whose lines are
    each shorter than 65536 bytes (the token limit of the scanner),
    `loadLabels` returns a nil error and exactly one string per line, in file
    order: the i-th string is the i-th line without one trailing carriage
    return, so the i-th line itself when no line ends in a carriage return; an
    empty file yields the empty sequence. -/
theorem loadLabels_returns_lines (openFile : GoString → Except String GoString)
    (filename content : GoString) (hopen : openFile filename = .ok content)
    (hshort : ∀ l ∈ fileLines content, l.length < maxScanTokenSize) :
    loadLabels openFile filename = .ok ((fileLines content).map dropCR) ∧
    ((fileLines content).map dropCR).length = (fileLines content).length ∧
    ((∀ l ∈ fileLines content, l.getLast? ≠ some '\r') →
      loadLabels openFile filename = .ok (fileLines content)) ∧
    (content = [] → loadLabels openFile filename = .ok []) := by
  have hmain : loadLabels openFile filename = .ok ((fileLines content).map dropCR) := by
    simp only [loadLabels, hopen]
    rw [scanLines_eq maxScanTokenSize content [] (by simp) (by simpa using hshort)]
    simp
  refine ⟨hmain, List.length_map _ _, ?_, ?_⟩
  · intro hcr
    rw [hmain]
    congr 1
    conv_rhs => rw [← List.map_id (fileLines content)]
    apply List.map_congr_left
    intro l hl
    simp [dropCR, hcr l hl]
  · intro he
    rw [hmain, he]
    rfl

/-- Witness for C6: a label file of three lines, the second one ending in a
    carriage return, the last one without a newline. -/
theorem loadLabels_returns_lines_witness :
    (∀ l ∈ fileLines "cat\ndog\r\nbird".toList, l.length < maxScanTokenSize) ∧
    loadLabels (fun _ => .ok "cat\ndog\r\nbird".toList) "labels.txt".toList
      = .ok ["cat".toList, "dog".toList, "bird".toList] := by
  have hs : ∀ l ∈ fileLines "cat\ndog\r\nbird".toList, l.length < maxScanTokenSize := by decide
  refine ⟨hs, ?_⟩
  rw [(loadLabels_returns_lines (fun _ => .ok "cat\ndog\r\nbird".toList) "labels.txt".toList
    "cat\ndog\r\nbird".toList rfl hs).1]
  rfl

end LabelImageDir
